import Mathlib

/-!
Shallow embedding of the IP address pool and peer lifecycle manager of the
sentinel-sdk repository (files `types/net_prefix.go`, `types/ip_pool.go`,
`wireguard/peer.go`), together with proofs settling the specification claims.

Machine-level types are modelled as follows:
* `netip.Addr` becomes `Addr`: either the zero (invalid) address or a family
  (IPv4/IPv6) together with a natural number below `2 ^ width`.
* `netip.Prefix` (embedded in the repository's `NetPrefix`) becomes the
  structure `NetPrefix` with an `Addr` and a bit count.
* Go's `int64` arithmetic in `NetPrefix.Len` (`int64(1) << diff`) is modelled
  exactly, including the two's-complement overflow for shifts of 63 bits or
  more.
* Go maps keyed by addresses become duplicate-free `List Addr` values with
  membership tests; the `unassigned` slice is an ordered `List Addr`.
* Functions returning `error` become `Option String`/`Except String`
  values carrying the exact message strings of the Go code; methods that
  mutate the receiver additionally return the updated state.  `IPPool.Get`
  returns its updated state even on the error path because the Go loop can
  advance the cursor before failing.
-/

namespace Sentinel

/-- Address family of a `netip.Addr`: IPv4 or IPv6. -/
inductive Fam where
  | v4
  | v6
deriving DecidableEq

/-- Bit width of an address family. -/
def Fam.width : Fam → Nat
  | .v4 => 32
  | .v6 => 128

/-- Model of `netip.Addr`: the zero value (invalid address) or a family with a
value below `2 ^ width`. -/
inductive Addr where
  | invalid
  | ip (f : Fam) (v : Nat)
deriving DecidableEq

/-- `netip.Addr.BitLen`: 0 for the zero address, 32 for IPv4, 128 for IPv6. -/
def Addr.BitLen : Addr → Nat
  | .invalid => 0
  | .ip f _ => f.width

/-- `netip.Addr.Is4`. -/
def Addr.Is4 : Addr → Bool
  | .ip .v4 _ => true
  | _ => false

/-- `netip.Addr.Next`: the successor address, or the zero address on overflow
past the all-ones address of the family. -/
def Addr.Next : Addr → Addr
  | .invalid => .invalid
  | .ip f v => if v + 1 < 2 ^ f.width then .ip f (v + 1) else .invalid

/-- Model of the repository's `NetPrefix` (an embedded `netip.Prefix`):
an address together with the number of leading significant bits.  The Go zero
value `NetPrefix{}` is `⟨.invalid, 0⟩`. -/
structure NetPrefix where
  addr : Addr
  bits : Nat
deriving DecidableEq

/-- `netip.Prefix.Contains`: family must match, the prefix must be valid
(`bits ≤ width`), and the top `bits` bits must agree. -/
def NetPrefix.Contains (p : NetPrefix) (a : Addr) : Bool :=
  match p.addr, a with
  | .ip f pv, .ip g v =>
      decide (f = g ∧ p.bits ≤ f.width ∧
        v / 2 ^ (f.width - p.bits) = pv / 2 ^ (f.width - p.bits))
  | _, _ => false

/-- `NetPrefix.NetworkAddr`, i.e. `p.Masked().Addr()`: the address with host
bits zeroed, or the zero address when the prefix is invalid. -/
def NetPrefix.NetworkAddr (p : NetPrefix) : Addr :=
  match p.addr with
  | .invalid => .invalid
  | .ip f v =>
      if p.bits ≤ f.width then
        .ip f (v / 2 ^ (f.width - p.bits) * 2 ^ (f.width - p.bits))
      else .invalid

/-- The constant `maxNetPrefixSize = 1 << 16` of `net_prefix.go`. -/
def maxNetPrefixSize : Int := 65536

/-- `NetPrefix.Len`: `diff := BitLen - Bits; if diff < 0 return 0;
return int64(1) << diff`, with Go's `int64` shift semantics: the result is the
low 64 bits of `2 ^ diff` read as a two's-complement signed integer (so IPv6
blocks wider than /65 overflow to 0 or to a negative number). -/
def NetPrefix.Len (p : NetPrefix) : Int :=
  let diff : Int := (p.addr.BitLen : Int) - (p.bits : Int)
  if diff < 0 then 0
  else
    let m : Nat := 2 ^ diff.toNat % 2 ^ 64
    if m < 2 ^ 63 then (m : Int) else (m : Int) - 2 ^ 64

/-- `NetPrefix.Validate` of the source: it returns `nil` unconditionally
(its doc comment says it checks the block size, but the body is
`return nil`). -/
def NetPrefix.Validate (_ : NetPrefix) : Option String :=
  none

/-- Fuel that strictly over-approximates the number of iterations any
forward scan starting at this address can take before the address leaves its
family's range (used to drive the loops of `NetPrefix.Addrs` and
`IPPool.Get`, which Go writes as unbounded `for` loops). -/
def Addr.scanFuel : Addr → Nat
  | .invalid => 1
  | .ip f v => 2 ^ f.width + 2 - min v (2 ^ f.width)

/-- The enumeration loop of `NetPrefix.Addrs`:
`for addr := p.NetworkAddr(); p.Contains(addr); addr = addr.Next()`. -/
def NetPrefix.addrsLoop (p : NetPrefix) : Nat → Addr → List Addr
  | 0, _ => []
  | fuel + 1, c => if p.Contains c then c :: p.addrsLoop fuel c.Next else []

/-- `NetPrefix.Addrs`: fails when `Len()` exceeds `maxNetPrefixSize`,
otherwise collects every address of the block starting at the network
address. -/
def NetPrefix.Addrs (p : NetPrefix) : Except String (List Addr) :=
  if p.Len > maxNetPrefixSize then .error "prefix block size is too large"
  else .ok (p.addrsLoop p.NetworkAddr.scanFuel p.NetworkAddr)

/-- `NetPrefix.BroadcastAddr`: IPv4 only; ORs the bytes of `Len() - 1` into
the bytes of the network address (byte-wise `|=` over the 4-byte array,
which is a 32-bit bitwise or of the network address value with the host
mask).  When `Len() - 1 = 0` it returns `p.Addr()` itself.  The `As4` call
panics when the network address is not IPv4 (only possible for a prefix no
parse can produce); that path is modelled as an error. -/
def NetPrefix.BroadcastAddr (p : NetPrefix) : Except String Addr :=
  if p.addr.Is4 then
    let size : Int := p.Len - 1
    if size = 0 then .ok p.addr
    else
      match p.NetworkAddr with
      | .ip g nv => .ok (.ip g (Nat.lor nv (size.toNat % 2 ^ 32)))
      | .invalid => .error "As4 called on non-IPv4 address"
  else .error "not applicable"

/-- Abstract outcome of `netip.ParsePrefix` on the input string: empty
string, malformed string, or a successful parse producing a family, an
address value and a bit count (`ParsePrefix` only succeeds with
`value < 2 ^ width` and `bits ≤ width`). -/
inductive CIDRString where
  | empty
  | malformed
  | valid (f : Fam) (v : Nat) (bits : Nat)
deriving DecidableEq

/-- `NewNetPrefixFromString`: the empty string yields the zero `NetPrefix`;
a parse failure is wrapped; a parsed prefix is validated (`Validate` never
fails in the source) and returned. -/
def NewNetPrefixFromString : CIDRString → Except String NetPrefix
  | .empty => .ok ⟨.invalid, 0⟩
  | .malformed => .error "failed to parse net prefix"
  | .valid f v bits =>
      if v < 2 ^ f.width ∧ bits ≤ f.width then
        match NetPrefix.Validate ⟨.ip f v, bits⟩ with
        | some e => .error ("invalid net prefix: " ++ e)
        | none => .ok ⟨.ip f v, bits⟩
      else .error "failed to parse net prefix"

/-- Insertion into a Go map used as a set (`m[addr] = true`): a no-op when the
key is already present. -/
def setInsert (a : Addr) (l : List Addr) : List Addr :=
  if a ∈ l then l else a :: l

/-- Deletion from a Go map used as a set (`delete(m, addr)`). -/
def setDelete (a : Addr) (l : List Addr) : List Addr :=
  l.filter (fun x => x ≠ a)

/-- Model of the repository's `IPPool`: the `assigned` and `reserved` maps
(as duplicate-free lists), the `unassigned` slice, the scan cursor `addr`
and the owning prefix (field `prefix` in Go, renamed here because that word
is reserved in Lean). -/
structure IPPool where
  assigned : List Addr
  reserved : List Addr
  unassigned : List Addr
  addr : Addr
  pfx : NetPrefix
deriving DecidableEq

/-- `IPPool.Reserve`: rejects addresses outside the prefix and addresses
already assigned or reserved; otherwise records the address as reserved.
The error paths do not mutate the pool. -/
def IPPool.Reserve (p : IPPool) (a : Addr) : Except String IPPool :=
  if ¬ p.pfx.Contains a then .error "addr is outside of prefix"
  else if a ∈ p.assigned ∨ a ∈ p.reserved then
    .error "addr is already assigned or reserved"
  else .ok { p with reserved := a :: p.reserved }

/-- The cursor loop of `IPPool.Get`:
`for { if !Contains(addr) return err; addr, cursor = cursor, cursor.Next(); if !reserved[addr] break }`.
Returns the selected address (if any) together with the final cursor — the
cursor advances past reserved addresses even when the loop eventually fails. -/
def IPPool.getScan (pfx : NetPrefix) (res : List Addr) :
    Nat → Addr → Option Addr × Addr
  | 0, c => (none, c)
  | fuel + 1, c =>
      if pfx.Contains c then
        if c ∈ res then IPPool.getScan pfx res fuel c.Next
        else (some c, c.Next)
      else (none, c)

/-- `IPPool.Get`: pops the head of `unassigned` if non-empty, otherwise scans
forward from the cursor skipping reserved addresses; fails with
"pool is empty" when the cursor leaves the prefix.  The returned pool is the
mutated receiver (on the scan's error path only the cursor may have moved). -/
def IPPool.Get (p : IPPool) : Except String Addr × IPPool :=
  match p.unassigned with
  | a :: rest =>
      (.ok a, { p with unassigned := rest, assigned := setInsert a p.assigned })
  | [] =>
      match IPPool.getScan p.pfx p.reserved p.addr.scanFuel p.addr with
      | (some a, c) =>
          (.ok a, { p with addr := c, assigned := setInsert a p.assigned })
      | (none, c) => (.error "pool is empty", { p with addr := c })

/-- `IPPool.Put`: fails when the address is not currently assigned; otherwise
removes it from `assigned` and appends it to `unassigned`.  The error path
does not mutate the pool. -/
def IPPool.Put (p : IPPool) (a : Addr) : Except String IPPool :=
  if a ∈ p.assigned then
    .ok { p with assigned := setDelete a p.assigned,
                 unassigned := p.unassigned ++ [a] }
  else .error "addr is not assigned"

/-- `_ = p.Reserve(addr)` of the constructor: the result is discarded, the
pool keeps its previous state when the reservation fails. -/
def reserveIgnore (p : IPPool) (a : Addr) : IPPool :=
  match p.Reserve a with
  | .ok q => q
  | .error _ => p

/-- `NewIPPoolFromString`: parses the prefix, starts the cursor at the
network address, reserves the prefix's own address and the network address
(ignoring failures), and for IPv4 additionally reserves the broadcast
address. -/
def NewIPPoolFromString (s : CIDRString) : Except String IPPool :=
  match NewNetPrefixFromString s with
  | .error e => .error ("failed to get net prefix: " ++ e)
  | .ok pfx =>
      let p : IPPool :=
        { assigned := [], reserved := [], unassigned := [],
          addr := pfx.NetworkAddr, pfx := pfx }
      let p := reserveIgnore p pfx.addr
      let p := reserveIgnore p pfx.NetworkAddr
      if p.addr.Is4 then
        match pfx.BroadcastAddr with
        | .error e => .error ("failed to get broadcast addr: " ++ e)
        | .ok broadcast => .ok (reserveIgnore p broadcast)
      else .ok p

deriving instance DecidableEq for Except

/-- `n` consecutive `Get()` calls with no interleaved `Put` or `Reserve`:
returns the successfully obtained addresses in order, the final pool state,
and the error of the first failing call (if any); calls after a failure are
not performed. -/
def IPPool.getN : Nat → IPPool → List Addr × IPPool × Option String
  | 0, p => ([], p, none)
  | n + 1, p =>
      match p.Get with
      | (.error e, p') => ([], p', some e)
      | (.ok a, p') =>
          let r := IPPool.getN n p'
          (a :: r.1, r.2)

/-- Model of `wireguard.Peer`. -/
structure Peer where
  ID : String
  Addrs : List Addr
deriving DecidableEq

/-- Model of `wireguard.PeerManager` (the spec's PeerRegistry): the peer map
as an association list and the ordered pool list.  Go holds the pools by
pointer; here their states are part of the manager's state. -/
structure PeerManager where
  m : List (String × Peer)
  pools : List IPPool
deriving DecidableEq

/-- `NewPeerManager`. -/
def NewPeerManager (pools : List IPPool) : PeerManager :=
  { m := [], pools := pools }

/-- `PeerManager.Get` (the spec's Lookup): map lookup, `none` models the nil
pointer for an absent key. -/
def PeerManager.Get (mgr : PeerManager) (v : String) : Option Peer :=
  mgr.m.lookup v

/-- The acquisition loop of `PeerManager.Put`: walk the pools in order,
calling `Get()` on each.  Returns the `(address, updated pool)` pairs of the
successful calls, the states of the pools not successfully drawn from (the
failing pool's state first — its cursor may have moved), and the wrapped
error of the first failing `Get()`. -/
def acquireAddrs : List IPPool → List (Addr × IPPool) × List IPPool × Option String
  | [] => ([], [], none)
  | p :: ps =>
      match p.Get with
      | (.error e, p') => ([], p' :: ps, some ("failed to get addr from pool: " ++ e))
      | (.ok a, p') =>
          let r := acquireAddrs ps
          ((a, p') :: r.1, r.2)

/-- The deferred rollback of `PeerManager.Put`: return each already obtained
address to its pool in acquisition order.  A failing `Put()` panics in Go;
the panic is modelled as an error that aborts the remaining rollback. -/
def rollbackAddrs : List (Addr × IPPool) → Except String (List IPPool)
  | [] => .ok []
  | (a, p) :: rest =>
      match p.Put a with
      | .error e => .error ("panic: failed to put addr to pool: " ++ e)
      | .ok p' =>
          match rollbackAddrs rest with
          | .error e => .error e
          | .ok ps => .ok (p' :: ps)

/-- `PeerManager.Put` (the spec's Acquire): rejects the empty id and ids
already present; otherwise draws one address from every pool in order.  If
any pool fails, the deferred block returns every already obtained address to
its pool before the error is propagated; on success the peer is stored.  The
second component is the manager's state after the call (Go mutates the pools
in place even when an error is returned). -/
def PeerManager.Put (mgr : PeerManager) (id : String) :
    Except String (List Addr) × PeerManager :=
  if id = "" then (.error "peer id is empty", mgr)
  else if (mgr.m.lookup id).isSome then
    (.error ("peer " ++ id ++ " already exists"), mgr)
  else
    match acquireAddrs mgr.pools with
    | (acq, rem, some e) =>
        match rollbackAddrs acq with
        | .error pe => (.error pe, { mgr with pools := rem })
        | .ok restored => (.error e, { mgr with pools := restored ++ rem })
    | (acq, _, none) =>
        let addrs := acq.map (fun x => x.1)
        (.ok addrs,
         { mgr with
             m := (id, { ID := id, Addrs := addrs }) :: mgr.m,
             pools := acq.map (fun x => x.2) })

/-- The `k` consecutive addresses of family `f` starting at value `start`. -/
def blockSeg (f : Fam) (start k : Nat) : List Addr :=
  (List.range k).map (fun i => Addr.ip f (start + i))

/-- The members of `blockSeg` not in the reserved list `R`, in order. -/
def freeSeg (f : Fam) (start k : Nat) (R : List Addr) : List Addr :=
  (blockSeg f start k).filter (fun a => decide (a ∉ R))

/-- One state transition of a pool under a `Get()` or `Put()` call.  A failed
`Put` does not change the state; a `Get` is included whether it succeeds or
fails (a failed `Get` can still advance the cursor). -/
inductive PoolStep : IPPool → IPPool → Prop where
  | get (p : IPPool) : PoolStep p (p.Get).2
  | put (p p' : IPPool) (a : Addr) : p.Put a = .ok p' → PoolStep p p'

/-- Reachability from a pool state by a finite sequence of `Get`/`Put`
calls. -/
def PoolReach : IPPool → IPPool → Prop :=
  Relation.ReflTransGen PoolStep

/-- The invariant backing the reserved-address guarantee: no assigned and no
recycled address is reserved. -/
def PoolInv (p : IPPool) : Prop :=
  (∀ a ∈ p.assigned, a ∉ p.reserved) ∧ (∀ a ∈ p.unassigned, a ∉ p.reserved)

/-! ### Basic lemmas about addresses and prefixes -/

theorem Fam.width_pos (f : Fam) : 0 < f.width := by
  cases f <;> simp [Fam.width]

theorem NetPrefix.Contains_invalid (p : NetPrefix) : p.Contains .invalid = false := by
  unfold NetPrefix.Contains
  cases p.addr <;> rfl

theorem NetPrefix.contains_ip_iff {f g : Fam} {pv v bits : Nat} :
    NetPrefix.Contains ⟨.ip f pv, bits⟩ (.ip g v) = true ↔
      f = g ∧ bits ≤ f.width ∧
        v / 2 ^ (f.width - bits) = pv / 2 ^ (f.width - bits) := by
  simp [NetPrefix.Contains]

theorem NetPrefix.contains_base_add (f : Fam) (pv bits j : Nat)
    (hb : bits ≤ f.width) :
    NetPrefix.Contains ⟨.ip f pv, bits⟩
        (.ip f (pv / 2 ^ (f.width - bits) * 2 ^ (f.width - bits) + j)) = true ↔
      j < 2 ^ (f.width - bits) := by
  have hpos : 0 < 2 ^ (f.width - bits) := Nat.pos_pow_of_pos _ (by omega)
  rw [NetPrefix.contains_ip_iff]
  have hdiv : (pv / 2 ^ (f.width - bits) * 2 ^ (f.width - bits) + j) /
      2 ^ (f.width - bits) = pv / 2 ^ (f.width - bits) + j / 2 ^ (f.width - bits) := by
    rw [Nat.add_comm, Nat.add_mul_div_right _ _ hpos, Nat.add_comm]
  rw [hdiv]
  constructor
  · rintro ⟨-, -, h⟩
    have : j / 2 ^ (f.width - bits) = 0 := by omega
    exact (Nat.div_eq_zero_iff hpos).mp this
  · intro hj
    exact ⟨rfl, hb, by rw [Nat.div_eq_of_lt hj]; omega⟩

theorem NetPrefix.base_add_pow_le {f : Fam} {pv bits : Nat}
    (hv : pv < 2 ^ f.width) (hb : bits ≤ f.width) :
    pv / 2 ^ (f.width - bits) * 2 ^ (f.width - bits) + 2 ^ (f.width - bits) ≤
      2 ^ f.width := by
  have hpos : 0 < 2 ^ (f.width - bits) := Nat.pos_pow_of_pos _ (by omega)
  have hsplit : 2 ^ f.width = 2 ^ bits * 2 ^ (f.width - bits) := by
    rw [← pow_add]
    congr 1
    omega
  have hlt : pv / 2 ^ (f.width - bits) < 2 ^ bits := by
    rw [Nat.div_lt_iff_lt_mul hpos, ← hsplit]
    exact hv
  calc pv / 2 ^ (f.width - bits) * 2 ^ (f.width - bits) + 2 ^ (f.width - bits)
      = (pv / 2 ^ (f.width - bits) + 1) * 2 ^ (f.width - bits) := by ring
    _ ≤ 2 ^ bits * 2 ^ (f.width - bits) := Nat.mul_le_mul_right _ (by omega)
    _ = 2 ^ f.width := hsplit.symm

theorem NetPrefix.NetworkAddr_valid {f : Fam} {pv bits : Nat} (hb : bits ≤ f.width) :
    NetPrefix.NetworkAddr ⟨.ip f pv, bits⟩ =
      .ip f (pv / 2 ^ (f.width - bits) * 2 ^ (f.width - bits)) := by
  simp [NetPrefix.NetworkAddr, hb]

/-! ### Lemmas about the set operations on Go maps -/

theorem mem_setInsert_self (a : Addr) (l : List Addr) : a ∈ setInsert a l := by
  by_cases h : a ∈ l <;> simp [setInsert, h]

theorem mem_setInsert {a b : Addr} {l : List Addr} :
    b ∈ setInsert a l ↔ b = a ∨ b ∈ l := by
  by_cases h : a ∈ l <;> simp [setInsert, h]
  intro e
  exact e ▸ h

theorem setDelete_setInsert (a : Addr) (l : List Addr) (h : a ∉ l) :
    setDelete a (setInsert a l) = l := by
  simp only [setInsert, if_neg h, setDelete, List.filter_cons]
  simp only [ne_eq, not_true_eq_false, decide_False]
  exact List.filter_eq_self.mpr fun x hx => by
    simp only [ne_eq, decide_eq_true_eq]
    exact fun e => h (e ▸ hx)

/-! ### Lemmas about the scan fuel -/

theorem Addr.scanFuel_pos (c : Addr) : 1 ≤ c.scanFuel := by
  cases c with
  | invalid => simp [Addr.scanFuel]
  | ip f v =>
      simp only [Addr.scanFuel]
      have := Nat.min_le_right v (2 ^ f.width)
      omega

theorem Addr.scanFuel_ip_ge_two (f : Fam) (v : Nat) : 2 ≤ (Addr.ip f v).scanFuel := by
  simp only [Addr.scanFuel]
  have := Nat.min_le_right v (2 ^ f.width)
  omega

theorem Addr.scanFuel_Next_le (f : Fam) (v : Nat) :
    (Addr.Next (.ip f v)).scanFuel ≤ (Addr.ip f v).scanFuel - 1 := by
  simp only [Addr.Next]
  split
  · rename_i hlt
    simp only [Addr.scanFuel]
    rw [Nat.min_eq_left (by omega), Nat.min_eq_left (by omega)]
    omega
  · rename_i hge
    simp only [Addr.scanFuel]
    have := Nat.min_le_right v (2 ^ f.width)
    have := Nat.min_le_left v (2 ^ f.width)
    omega

/-! ### Lemmas about the cursor scan of `IPPool.Get` -/

theorem IPPool.getScan_fuel_congr (pfx : NetPrefix) (res : List Addr) :
    ∀ f1 f2 c, c.scanFuel ≤ f1 → c.scanFuel ≤ f2 →
      IPPool.getScan pfx res f1 c = IPPool.getScan pfx res f2 c := by
  intro f1
  induction f1 with
  | zero =>
      intro f2 c h1 _
      exact absurd h1 (by have := c.scanFuel_pos; omega)
  | succ a ih =>
      intro f2 c h1 h2
      obtain ⟨b, rfl⟩ : ∃ b, f2 = b + 1 :=
        ⟨f2 - 1, by have := c.scanFuel_pos; omega⟩
      cases c with
      | invalid =>
          simp [IPPool.getScan, NetPrefix.Contains_invalid]
      | ip g v =>
          show IPPool.getScan pfx res (a + 1) (.ip g v) =
            IPPool.getScan pfx res (b + 1) (.ip g v)
          unfold IPPool.getScan
          by_cases hc : pfx.Contains (.ip g v) = true
          · rw [if_pos hc, if_pos hc]
            by_cases hr : (Addr.ip g v) ∈ res
            · rw [if_pos hr, if_pos hr]
              have hnext := Addr.scanFuel_Next_le g v
              have hge := Addr.scanFuel_ip_ge_two g v
              exact ih b (Addr.Next (.ip g v)) (by omega) (by omega)
            · rw [if_neg hr, if_neg hr]
          · rw [if_neg hc, if_neg hc]

theorem IPPool.getScan_some (pfx : NetPrefix) (res : List Addr) :
    ∀ fuel c a c', IPPool.getScan pfx res fuel c = (some a, c') →
      pfx.Contains a = true ∧ a ∉ res ∧ c' = a.Next := by
  intro fuel
  induction fuel with
  | zero =>
      intro c a c' h
      simp [IPPool.getScan] at h
  | succ n ih =>
      intro c a c' h
      unfold IPPool.getScan at h
      by_cases hc : pfx.Contains c
      · simp only [hc, if_true] at h
        by_cases hr : c ∈ res
        · simp only [hr, if_true] at h
          exact ih c.Next a c' h
        · simp only [hr, if_false] at h
          injection h with h1 h2
          injection h1 with h1
          subst h1
          subst h2
          exact ⟨hc, hr, rfl⟩
      · simp [hc] at h

/-! ### Unfolding and preservation lemmas for `Get` and `Put` -/

theorem IPPool.Get_pop {p : IPPool} {a : Addr} {rest : List Addr}
    (hu : p.unassigned = a :: rest) :
    p.Get = (.ok a, { p with unassigned := rest, assigned := setInsert a p.assigned }) := by
  unfold IPPool.Get
  rw [hu]

theorem IPPool.Get_scan_ok {p : IPPool} {a : Addr} {c : Addr}
    (hu : p.unassigned = [])
    (hs : IPPool.getScan p.pfx p.reserved p.addr.scanFuel p.addr = (some a, c)) :
    p.Get = (.ok a, { p with addr := c, assigned := setInsert a p.assigned }) := by
  unfold IPPool.Get
  rw [hu, hs]

theorem IPPool.Get_scan_err {p : IPPool} {c : Addr}
    (hu : p.unassigned = [])
    (hs : IPPool.getScan p.pfx p.reserved p.addr.scanFuel p.addr = (none, c)) :
    p.Get = (.error "pool is empty", { p with addr := c }) := by
  unfold IPPool.Get
  rw [hu, hs]

theorem IPPool.Get_reserved (p : IPPool) : (p.Get).2.reserved = p.reserved := by
  unfold IPPool.Get
  cases hu : p.unassigned with
  | cons a rest => rfl
  | nil =>
      rcases hs : IPPool.getScan p.pfx p.reserved p.addr.scanFuel p.addr with ⟨o, c⟩
      cases o <;> rfl

theorem IPPool.Get_pfx (p : IPPool) : (p.Get).2.pfx = p.pfx := by
  unfold IPPool.Get
  cases hu : p.unassigned with
  | cons a rest => rfl
  | nil =>
      rcases hs : IPPool.getScan p.pfx p.reserved p.addr.scanFuel p.addr with ⟨o, c⟩
      cases o <;> rfl

theorem IPPool.Get_ok_assigned {p p' : IPPool} {a : Addr}
    (h : p.Get = (.ok a, p')) : p'.assigned = setInsert a p.assigned := by
  unfold IPPool.Get at h
  cases hu : p.unassigned with
  | cons b rest =>
      rw [hu] at h
      injection h with h1 h2
      injection h1 with h1
      subst h1
      subst h2
      rfl
  | nil =>
      rw [hu] at h
      rcases hs : IPPool.getScan p.pfx p.reserved p.addr.scanFuel p.addr with ⟨o, c⟩
      rw [hs] at h
      cases o with
      | none => exact absurd h (by simp)
      | some b =>
          injection h with h1 h2
          injection h1 with h1
          subst h1
          subst h2
          rfl

theorem IPPool.Get_ok_mem_assigned {p p' : IPPool} {a : Addr}
    (h : p.Get = (.ok a, p')) : a ∈ p'.assigned := by
  rw [IPPool.Get_ok_assigned h]
  exact mem_setInsert_self a p.assigned

theorem IPPool.Put_ok {p : IPPool} {a : Addr} (ha : a ∈ p.assigned) :
    p.Put a = .ok { p with assigned := setDelete a p.assigned,
                           unassigned := p.unassigned ++ [a] } := by
  unfold IPPool.Put
  rw [if_pos ha]

theorem IPPool.Put_err {p : IPPool} {a : Addr} (ha : a ∉ p.assigned) :
    p.Put a = .error "addr is not assigned" := by
  unfold IPPool.Put
  rw [if_neg ha]

theorem IPPool.getScan_step (pfx : NetPrefix) (res : List Addr) {c : Addr} (fuel : Nat)
    (hc : pfx.Contains c = true) (hr : c ∈ res) :
    IPPool.getScan pfx res (fuel + 1) c = IPPool.getScan pfx res fuel c.Next := by
  conv_lhs => unfold IPPool.getScan
  rw [if_pos hc, if_pos hr]

theorem IPPool.getScan_found (pfx : NetPrefix) (res : List Addr) {c : Addr} (fuel : Nat)
    (hc : pfx.Contains c = true) (hr : c ∉ res) :
    IPPool.getScan pfx res (fuel + 1) c = (some c, c.Next) := by
  conv_lhs => unfold IPPool.getScan
  rw [if_pos hc, if_neg hr]

theorem IPPool.getScan_exit (pfx : NetPrefix) (res : List Addr) {c : Addr} (fuel : Nat)
    (hc : pfx.Contains c = false) :
    IPPool.getScan pfx res (fuel + 1) c = (none, c) := by
  conv_lhs => unfold IPPool.getScan
  rw [if_neg (by simp [hc])]

/-- Skipping one reserved address at the cursor: `Get` behaves as if the
cursor had already been advanced past it. -/
theorem IPPool.Get_skip {p : IPPool} {g : Fam} {v : Nat}
    (hcur : p.addr = .ip g v) (hc : p.pfx.Contains (.ip g v) = true)
    (hres : (Addr.ip g v) ∈ p.reserved) (hu : p.unassigned = []) :
    p.Get = IPPool.Get { p with addr := (Addr.ip g v).Next } := by
  have hge := Addr.scanFuel_ip_ge_two g v
  have hnext := Addr.scanFuel_Next_le g v
  have hL : IPPool.getScan p.pfx p.reserved p.addr.scanFuel p.addr =
      IPPool.getScan p.pfx p.reserved (Addr.Next (.ip g v)).scanFuel
        (Addr.Next (.ip g v)) := by
    rw [hcur]
    have h1 : (Addr.ip g v).scanFuel = ((Addr.ip g v).scanFuel - 1) + 1 := by omega
    rw [h1, IPPool.getScan_step p.pfx p.reserved _ hc hres]
    exact IPPool.getScan_fuel_congr _ _ _ _ _ (by omega) (le_refl _)
  rcases hsc : IPPool.getScan p.pfx p.reserved (Addr.Next (.ip g v)).scanFuel
      (Addr.Next (.ip g v)) with ⟨o, c'⟩
  cases o with
  | some a =>
      rw [IPPool.Get_scan_ok hu (hL.trans hsc),
        IPPool.Get_scan_ok (p := { p with addr := (Addr.ip g v).Next }) hu hsc]
  | none =>
      rw [IPPool.Get_scan_err hu (hL.trans hsc),
        IPPool.Get_scan_err (p := { p with addr := (Addr.ip g v).Next }) hu hsc]

theorem IPPool.getN_succ_ok {p p' : IPPool} {a : Addr}
    (h : p.Get = (.ok a, p')) (n : Nat) :
    IPPool.getN (n + 1) p = (a :: (IPPool.getN n p').1, (IPPool.getN n p').2) := by
  conv_lhs => unfold IPPool.getN
  rw [h]

theorem IPPool.getN_succ_err {p p' : IPPool} {e : String}
    (h : p.Get = (.error e, p')) (n : Nat) :
    IPPool.getN (n + 1) p = ([], p', some e) := by
  conv_lhs => unfold IPPool.getN
  rw [h]

theorem IPPool.getN_succ_congr {p q : IPPool} (h : p.Get = q.Get) (n : Nat) :
    IPPool.getN (n + 1) p = IPPool.getN (n + 1) q := by
  unfold IPPool.getN
  rw [h]

/-! ### The ascending block segment and its reserved-free sublist -/

theorem blockSeg_zero (f : Fam) (start : Nat) : blockSeg f start 0 = [] := rfl

theorem blockSeg_succ (f : Fam) (start k : Nat) :
    blockSeg f start (k + 1) = .ip f start :: blockSeg f (start + 1) k := by
  unfold blockSeg
  rw [List.range_succ_eq_map, List.map_cons, List.map_map]
  congr 1
  apply List.map_congr_left
  intro i _
  simp only [Function.comp_apply, Nat.succ_eq_add_one]
  congr 1
  omega

theorem freeSeg_zero (f : Fam) (start : Nat) (R : List Addr) :
    freeSeg f start 0 R = [] := rfl

theorem freeSeg_succ_mem (f : Fam) (start k : Nat) {R : List Addr}
    (h : (Addr.ip f start) ∈ R) :
    freeSeg f start (k + 1) R = freeSeg f (start + 1) k R := by
  unfold freeSeg
  rw [blockSeg_succ, List.filter_cons]
  simp [h]

theorem freeSeg_succ_not_mem (f : Fam) (start k : Nat) {R : List Addr}
    (h : (Addr.ip f start) ∉ R) :
    freeSeg f start (k + 1) R = .ip f start :: freeSeg f (start + 1) k R := by
  unfold freeSeg
  rw [blockSeg_succ, List.filter_cons]
  simp [h]

theorem blockSeg_nodup (f : Fam) (start k : Nat) : (blockSeg f start k).Nodup := by
  unfold blockSeg
  refine List.Nodup.map ?_ (List.nodup_range k)
  intro i j hij
  injection hij with h1 h2
  omega

theorem freeSeg_nodup (f : Fam) (start k : Nat) (R : List Addr) :
    (freeSeg f start k R).Nodup :=
  (blockSeg_nodup f start k).filter _

theorem IPPool.getN_proj_congr {p q : IPPool} (h : p.Get = q.Get) (n : Nat) :
    (IPPool.getN n p).1 = (IPPool.getN n q).1 ∧
      (IPPool.getN n p).2.2 = (IPPool.getN n q).2.2 := by
  cases n with
  | zero => exact ⟨rfl, rfl⟩
  | succ n => rw [IPPool.getN_succ_congr h n]; exact ⟨rfl, rfl⟩

/-- The exhaustion sweep: on a pool with an empty recycled queue whose cursor
sits `j` addresses into its block, consecutive `Get()` calls return exactly
the non-reserved remainder of the block in ascending order, and the next
call after that fails with the pool-empty error. -/
theorem IPPool.sweep {f : Fam} {pv bits base : Nat}
    (hv : pv < 2 ^ f.width) (hb : bits ≤ f.width)
    (hbase : base = pv / 2 ^ (f.width - bits) * 2 ^ (f.width - bits)) :
    ∀ (k : Nat) (p : IPPool) (j : Nat),
      p.pfx = ⟨.ip f pv, bits⟩ →
      p.unassigned = [] →
      p.addr = .ip f (base + j) →
      j + k = 2 ^ (f.width - bits) →
      (IPPool.getN (freeSeg f (base + j) k p.reserved).length p).1 =
          freeSeg f (base + j) k p.reserved ∧
      (IPPool.getN (freeSeg f (base + j) k p.reserved).length p).2.2 = none ∧
      (IPPool.getN ((freeSeg f (base + j) k p.reserved).length + 1) p).2.2 =
          some "pool is empty" := by
  have hle : base + 2 ^ (f.width - bits) ≤ 2 ^ f.width := by
    rw [hbase]
    exact NetPrefix.base_add_pow_le hv hb
  intro k
  induction k with
  | zero =>
      intro p j hpfx hu haddr hsum
      refine ⟨rfl, rfl, ?_⟩
      have hc : p.pfx.Contains (.ip f (base + j)) = false := by
        have hiff := NetPrefix.contains_base_add f pv bits j hb
        rw [hpfx, hbase]
        rw [← hbase] at hiff ⊢
        cases hcc : NetPrefix.Contains ⟨.ip f pv, bits⟩ (.ip f (base + j)) with
        | false => rfl
        | true => exact absurd ((hcc ▸ hiff).mp rfl) (by omega)
      have hpos := (p.addr).scanFuel_pos
      have hfe : p.addr.scanFuel = (p.addr.scanFuel - 1) + 1 := by omega
      have hscan : IPPool.getScan p.pfx p.reserved p.addr.scanFuel p.addr =
          (none, p.addr) := by
        rw [hfe, haddr]
        exact IPPool.getScan_exit p.pfx p.reserved _ (haddr ▸ hc)
      simp only [freeSeg_zero, List.length_nil]
      rw [IPPool.getN_succ_err (IPPool.Get_scan_err hu hscan) 0]
  | succ k ih =>
      intro p j hpfx hu haddr hsum
      have hj : j < 2 ^ (f.width - bits) := by omega
      have hcontains : p.pfx.Contains (.ip f (base + j)) = true := by
        rw [hpfx, hbase]
        exact (NetPrefix.contains_base_add f pv bits j hb).mpr (by omega)
      by_cases hr : (Addr.ip f (base + j)) ∈ p.reserved
      · -- the cursor sits on a reserved address: `Get` skips it
        rw [freeSeg_succ_mem f (base + j) k hr]
        by_cases hlt : base + j + 1 < 2 ^ f.width
        · have hnext : (Addr.ip f (base + j)).Next = .ip f (base + j + 1) := by
            simp [Addr.Next, hlt]
          have hgs : p.Get = IPPool.Get { p with addr := (Addr.ip f (base + j)).Next } :=
            IPPool.Get_skip haddr hcontains hr hu
          have haddr' : ({ p with addr := (Addr.ip f (base + j)).Next } : IPPool).addr =
              .ip f (base + (j + 1)) := hnext
          have IH := ih { p with addr := (Addr.ip f (base + j)).Next } (j + 1)
            hpfx hu haddr' (by omega)
          obtain ⟨e1, e2⟩ := IPPool.getN_proj_congr hgs
            (freeSeg f (base + j + 1) k p.reserved).length
          obtain ⟨-, e3⟩ := IPPool.getN_proj_congr hgs
            ((freeSeg f (base + j + 1) k p.reserved).length + 1)
          exact ⟨e1.trans IH.1, e2.trans IH.2.1, e3.trans IH.2.2⟩
        · have hend : base + j + 1 = 2 ^ f.width := by omega
          have hk : k = 0 := by omega
          subst hk
          have hnext : (Addr.ip f (base + j)).Next = .invalid := by
            simp [Addr.Next]
            omega
          have hgs : p.Get = IPPool.Get { p with addr := (Addr.ip f (base + j)).Next } :=
            IPPool.Get_skip haddr hcontains hr hu
          refine ⟨rfl, rfl, ?_⟩
          have hscan : IPPool.getScan p.pfx p.reserved
              (Addr.invalid).scanFuel (Addr.invalid) = (none, .invalid) :=
            IPPool.getScan_exit p.pfx p.reserved 0 (NetPrefix.Contains_invalid p.pfx)
          have hget' : IPPool.Get { p with addr := Addr.invalid } =
              (.error "pool is empty", { p with addr := Addr.invalid }) :=
            IPPool.Get_scan_err (p := { p with addr := Addr.invalid }) hu hscan
          simp only [freeSeg_zero, List.length_nil]
          rw [IPPool.getN_succ_congr hgs 0, hnext, IPPool.getN_succ_err hget' 0]
      · -- the cursor sits on a free address: `Get` returns it
        rw [freeSeg_succ_not_mem f (base + j) k hr]
        simp only [List.length_cons]
        have hpos := (p.addr).scanFuel_pos
        have hfe : p.addr.scanFuel = (p.addr.scanFuel - 1) + 1 := by omega
        have hscan : IPPool.getScan p.pfx p.reserved p.addr.scanFuel p.addr =
            (some (.ip f (base + j)), (Addr.ip f (base + j)).Next) := by
          rw [hfe, haddr]
          exact IPPool.getScan_found p.pfx p.reserved _ hcontains hr
        have hget : p.Get = (.ok (.ip f (base + j)),
            { p with addr := (Addr.ip f (base + j)).Next,
                     assigned := setInsert (.ip f (base + j)) p.assigned }) :=
          IPPool.Get_scan_ok hu hscan
        by_cases hlt : base + j + 1 < 2 ^ f.width
        · have hnext : (Addr.ip f (base + j)).Next = .ip f (base + j + 1) := by
            simp [Addr.Next, hlt]
          have haddr' : ({ p with
                addr := (Addr.ip f (base + j)).Next,
                assigned := setInsert (.ip f (base + j)) p.assigned } : IPPool).addr =
              .ip f (base + (j + 1)) := hnext
          have IH := ih { p with
              addr := (Addr.ip f (base + j)).Next,
              assigned := setInsert (.ip f (base + j)) p.assigned } (j + 1)
            hpfx hu haddr' (by omega)
          refine ⟨?_, ?_, ?_⟩
          · rw [IPPool.getN_succ_ok hget]
            exact congrArg _ IH.1
          · rw [IPPool.getN_succ_ok hget]
            exact IH.2.1
          · rw [IPPool.getN_succ_ok hget]
            exact IH.2.2
        · have hend : base + j + 1 = 2 ^ f.width := by omega
          have hk : k = 0 := by omega
          subst hk
          have hnext : (Addr.ip f (base + j)).Next = .invalid := by
            simp [Addr.Next]
            omega
          refine ⟨?_, ?_, ?_⟩
          · simp only [freeSeg_zero, List.length_nil]
            rw [IPPool.getN_succ_ok hget]
            rfl
          · simp only [freeSeg_zero, List.length_nil]
            rw [IPPool.getN_succ_ok hget]
            rfl
          · simp only [freeSeg_zero, List.length_nil]
            rw [IPPool.getN_succ_ok hget, hnext]
            have hscan' : IPPool.getScan p.pfx p.reserved
                (Addr.invalid).scanFuel (Addr.invalid) = (none, .invalid) :=
              IPPool.getScan_exit p.pfx p.reserved 0 (NetPrefix.Contains_invalid p.pfx)
            have hget' : IPPool.Get { p with
                  addr := Addr.invalid,
                  assigned := setInsert (.ip f (base + j)) p.assigned } =
                (.error "pool is empty",
                 { p with
                    addr := Addr.invalid,
                    assigned := setInsert (.ip f (base + j)) p.assigned }) :=
              IPPool.Get_scan_err
                (p := { p with
                    addr := Addr.invalid,
                    assigned := setInsert (.ip f (base + j)) p.assigned }) hu hscan'
            rw [IPPool.getN_succ_err hget' 0]

/-! ### Reservation lemmas -/

theorem IPPool.Reserve_ok {p : IPPool} {a : Addr} (hc : p.pfx.Contains a = true)
    (hna : a ∉ p.assigned) (hnr : a ∉ p.reserved) :
    p.Reserve a = .ok { p with reserved := a :: p.reserved } := by
  unfold IPPool.Reserve
  rw [if_neg (by simp [hc]), if_neg (by simp [hna, hnr])]

theorem IPPool.Reserve_ok_inv {p q : IPPool} {a : Addr} (h : p.Reserve a = .ok q) :
    q = { p with reserved := a :: p.reserved } ∧ p.pfx.Contains a = true ∧
      a ∉ p.assigned ∧ a ∉ p.reserved := by
  unfold IPPool.Reserve at h
  by_cases h1 : p.pfx.Contains a = true
  · rw [if_neg (not_not_intro h1)] at h
    by_cases h2 : a ∈ p.assigned ∨ a ∈ p.reserved
    · rw [if_pos h2] at h
      exact absurd h (by simp)
    · rw [if_neg h2] at h
      injection h with h
      push_neg at h2
      exact ⟨h.symm, h1, h2.1, h2.2⟩
  · rw [if_pos h1] at h
    exact absurd h (by simp)

theorem IPPool.Reserve_err_inv {p : IPPool} {a : Addr} {e : String}
    (h : p.Reserve a = .error e) :
    ¬ p.pfx.Contains a = true ∨ a ∈ p.assigned ∨ a ∈ p.reserved := by
  unfold IPPool.Reserve at h
  by_cases h1 : p.pfx.Contains a = true
  · rw [if_neg (not_not_intro h1)] at h
    by_cases h2 : a ∈ p.assigned ∨ a ∈ p.reserved
    · exact Or.inr h2
    · rw [if_neg h2] at h
      exact absurd h (by simp)
  · exact Or.inl h1

theorem reserveIgnore_cases (p : IPPool) (a : Addr) :
    (reserveIgnore p a = p ∧
       (p.pfx.Contains a = true → a ∉ p.assigned → a ∈ p.reserved)) ∨
      (reserveIgnore p a = { p with reserved := a :: p.reserved } ∧
       p.pfx.Contains a = true ∧ a ∉ p.assigned ∧ a ∉ p.reserved) := by
  unfold reserveIgnore
  cases h : p.Reserve a with
  | error e =>
      left
      refine ⟨rfl, fun hc hna => ?_⟩
      rcases IPPool.Reserve_err_inv h with h1 | h1 | h1
      · exact absurd hc h1
      · exact absurd h1 hna
      · exact h1
  | ok q =>
      right
      obtain ⟨rfl, hc, hna, hnr⟩ := IPPool.Reserve_ok_inv h
      exact ⟨rfl, hc, hna, hnr⟩

theorem reserveIgnore_assigned (p : IPPool) (a : Addr) :
    (reserveIgnore p a).assigned = p.assigned := by
  rcases reserveIgnore_cases p a with ⟨h, -⟩ | ⟨h, -⟩ <;> rw [h]

theorem reserveIgnore_unassigned (p : IPPool) (a : Addr) :
    (reserveIgnore p a).unassigned = p.unassigned := by
  rcases reserveIgnore_cases p a with ⟨h, -⟩ | ⟨h, -⟩ <;> rw [h]

theorem reserveIgnore_addr (p : IPPool) (a : Addr) :
    (reserveIgnore p a).addr = p.addr := by
  rcases reserveIgnore_cases p a with ⟨h, -⟩ | ⟨h, -⟩ <;> rw [h]

theorem reserveIgnore_pfx (p : IPPool) (a : Addr) :
    (reserveIgnore p a).pfx = p.pfx := by
  rcases reserveIgnore_cases p a with ⟨h, -⟩ | ⟨h, -⟩ <;> rw [h]

theorem reserveIgnore_mem_self {p : IPPool} {a : Addr}
    (hc : p.pfx.Contains a = true) (hna : a ∉ p.assigned) :
    a ∈ (reserveIgnore p a).reserved := by
  rcases reserveIgnore_cases p a with ⟨h, hm⟩ | ⟨h, -⟩
  · rw [h]
    exact hm hc hna
  · rw [h]
    exact List.mem_cons_self a p.reserved

theorem reserveIgnore_reserved_superset (p : IPPool) (a : Addr) :
    p.reserved ⊆ (reserveIgnore p a).reserved := by
  rcases reserveIgnore_cases p a with ⟨h, -⟩ | ⟨h, -⟩ <;> rw [h]
  · exact fun x hx => hx
  · exact fun x hx => List.mem_cons_of_mem a hx

theorem reserveIgnore_nodup {p : IPPool} (a : Addr) (h : p.reserved.Nodup) :
    (reserveIgnore p a).reserved.Nodup := by
  rcases reserveIgnore_cases p a with ⟨he, -⟩ | ⟨he, -, -, hnr⟩ <;> rw [he]
  · exact h
  · exact List.Nodup.cons hnr h

theorem reserveIgnore_contains_all {p : IPPool} (a : Addr)
    (h : ∀ r ∈ p.reserved, p.pfx.Contains r = true) :
    ∀ r ∈ (reserveIgnore p a).reserved, p.pfx.Contains r = true := by
  rcases reserveIgnore_cases p a with ⟨he, -⟩ | ⟨he, hc, -, -⟩ <;> rw [he]
  · exact h
  · intro r hr
    rcases List.mem_cons.mp hr with rfl | hr
    · exact hc
    · exact h r hr

/-! ### Arithmetic helpers: `Len` on narrow blocks and the broadcast OR -/

theorem NetPrefix.Len_small {f : Fam} (v bits : Nat) (hb : bits ≤ f.width)
    (hsm : f.width - bits ≤ 62) :
    NetPrefix.Len ⟨.ip f v, bits⟩ = 2 ^ (f.width - bits) := by
  unfold NetPrefix.Len
  have hd : ¬ ((((Addr.ip f v).BitLen : Int) - (bits : Int)) < 0) := by
    simp only [Addr.BitLen]
    omega
  rw [if_neg hd]
  have htn : (((Addr.ip f v).BitLen : Int) - (bits : Int)).toNat = f.width - bits := by
    simp only [Addr.BitLen]
    omega
  rw [htn]
  have hlt64 : 2 ^ (f.width - bits) < 2 ^ 64 :=
    Nat.lt_of_le_of_lt (Nat.pow_le_pow_right (by omega) hsm) (by norm_num)
  have hlt63 : 2 ^ (f.width - bits) < 2 ^ 63 :=
    Nat.lt_of_le_of_lt (Nat.pow_le_pow_right (by omega) hsm) (by norm_num)
  rw [Nat.mod_eq_of_lt hlt64, if_pos (by exact_mod_cast hlt63)]
  push_cast
  rfl

theorem lor_mask_div (x h : Nat) : (Nat.lor x (2 ^ h - 1)) / 2 ^ h = x / 2 ^ h := by
  rw [← Nat.shiftRight_eq_div_pow, ← Nat.shiftRight_eq_div_pow]
  apply Nat.eq_of_testBit_eq
  intro i
  rw [Nat.testBit_shiftRight, Nat.testBit_shiftRight]
  show ((x ||| (2 ^ h - 1)).testBit (h + i)) = x.testBit (h + i)
  rw [Nat.testBit_lor, Nat.testBit_two_pow_sub_one]
  simp [Nat.not_lt.mpr (Nat.le_add_right h i)]

/-! ### Membership of the block segment and the counting argument -/

theorem mem_blockSeg_iff {f : Fam} {start k : Nat} {a : Addr} :
    a ∈ blockSeg f start k ↔ ∃ i, i < k ∧ a = .ip f (start + i) := by
  unfold blockSeg
  simp only [List.mem_map, List.mem_range]
  constructor
  · rintro ⟨i, hi, rfl⟩
    exact ⟨i, hi, rfl⟩
  · rintro ⟨i, hi, rfl⟩
    exact ⟨i, hi, rfl⟩

theorem mem_blockSeg_of_contains {f : Fam} {pv bits : Nat} {r : Addr}
    (hc : NetPrefix.Contains ⟨.ip f pv, bits⟩ r = true) :
    r ∈ blockSeg f (pv / 2 ^ (f.width - bits) * 2 ^ (f.width - bits))
      (2 ^ (f.width - bits)) := by
  have hpos : 0 < 2 ^ (f.width - bits) := Nat.pos_pow_of_pos _ (by omega)
  cases r with
  | invalid => rw [NetPrefix.Contains_invalid] at hc; exact absurd hc (by simp)
  | ip g vr =>
      obtain ⟨rfl, -, hdiv⟩ := NetPrefix.contains_ip_iff.mp hc
      rw [mem_blockSeg_iff]
      have hbase_le : pv / 2 ^ (f.width - bits) * 2 ^ (f.width - bits) ≤ vr := by
        rw [← hdiv]
        exact Nat.div_mul_le_self vr _
      have hdm := Nat.div_add_mod vr (2 ^ (f.width - bits))
      have hmod : vr % 2 ^ (f.width - bits) < 2 ^ (f.width - bits) := Nat.mod_lt _ hpos
      have hmul : 2 ^ (f.width - bits) * (vr / 2 ^ (f.width - bits)) =
          vr / 2 ^ (f.width - bits) * 2 ^ (f.width - bits) := Nat.mul_comm _ _
      have heqb : vr / 2 ^ (f.width - bits) * 2 ^ (f.width - bits) =
          pv / 2 ^ (f.width - bits) * 2 ^ (f.width - bits) := by rw [hdiv]
      refine ⟨vr - pv / 2 ^ (f.width - bits) * 2 ^ (f.width - bits), ?_, ?_⟩
      · omega
      · congr 1
        omega

theorem length_filter_split (l R : List Addr) :
    (l.filter (fun a => decide (a ∈ R))).length +
      (l.filter (fun a => decide (a ∉ R))).length = l.length := by
  induction l with
  | nil => rfl
  | cons a t ih =>
      by_cases h : a ∈ R
      · rw [List.filter_cons, List.filter_cons, if_pos (by simpa using h),
          if_neg (by simpa using h)]
        simp only [List.length_cons]
        omega
      · rw [List.filter_cons, List.filter_cons, if_neg (by simpa using h),
          if_pos (by simpa using h)]
        simp only [List.length_cons]
        omega

theorem length_filter_not_mem {l R : List Addr} (hnd : l.Nodup) (hR : R.Nodup)
    (hsub : ∀ r ∈ R, r ∈ l) :
    (l.filter (fun a => decide (a ∉ R))).length = l.length - R.length := by
  have h1 : (l.filter (fun a => decide (a ∈ R))).length = R.length := by
    refine List.Perm.length_eq ?_
    refine (List.perm_ext_iff_of_nodup (hnd.filter _) hR).mpr ?_
    intro a
    simp only [List.mem_filter, decide_eq_true_eq]
    exact ⟨fun h => h.2, fun h => ⟨hsub a h, h⟩⟩
  have h2 := length_filter_split l R
  omega

theorem blockSeg_length (f : Fam) (start k : Nat) : (blockSeg f start k).length = k := by
  unfold blockSeg
  rw [List.length_map, List.length_range]

/-! ### Parsing and construction lemmas -/


theorem NewNetPrefixFromString_valid {f : Fam} {v bits : Nat}
    (hv : v < 2 ^ f.width) (hb : bits ≤ f.width) :
    NewNetPrefixFromString (.valid f v bits) = .ok ⟨.ip f v, bits⟩ := by
  simp only [NewNetPrefixFromString, NetPrefix.Validate]
  rw [if_pos ⟨hv, hb⟩]

theorem NetPrefix.BroadcastAddr_v4_32 (v : Nat) :
    NetPrefix.BroadcastAddr ⟨.ip .v4 v, 32⟩ = .ok (.ip .v4 v) := by
  unfold NetPrefix.BroadcastAddr
  rw [if_pos (show (Addr.ip Fam.v4 v).Is4 = true from rfl)]
  rw [NetPrefix.Len_small v 32 (by norm_num [Fam.width]) (by norm_num [Fam.width])]
  norm_num [Fam.width]

theorem NetPrefix.BroadcastAddr_v4_lt {v bits : Nat} (hb : bits < 32) :
    NetPrefix.BroadcastAddr ⟨.ip .v4 v, bits⟩ =
      .ok (.ip .v4 (Nat.lor (v / 2 ^ (32 - bits) * 2 ^ (32 - bits))
        (2 ^ (32 - bits) - 1))) := by
  have hw : Fam.width .v4 = 32 := rfl
  have hone : (1:Nat) ≤ 2 ^ (32 - bits) := Nat.one_le_two_pow
  have hb1 : 1 ≤ 32 - bits := by omega
  have htwo : (2:Nat) ≤ 2 ^ (32 - bits) := by
    calc (2:Nat) = 2 ^ 1 := rfl
      _ ≤ 2 ^ (32 - bits) := Nat.pow_le_pow_right (by omega) hb1
  have hcast : ((2:Int) ^ (32 - bits)) = ((2 ^ (32 - bits) : Nat) : Int) := by
    push_cast
    rfl
  unfold NetPrefix.BroadcastAddr
  rw [if_pos (show (Addr.ip Fam.v4 v).Is4 = true from rfl)]
  rw [NetPrefix.Len_small v bits (by rw [hw]; omega) (by rw [hw]; omega)]
  rw [hw]
  rw [if_neg (by rw [hcast]; omega)]
  rw [NetPrefix.NetworkAddr_valid (f := .v4) (by rw [hw]; omega)]
  rw [hw]
  have htn : ((2:Int) ^ (32 - bits) - 1).toNat = 2 ^ (32 - bits) - 1 := by
    rw [hcast]
    omega
  have hmod : (2 ^ (32 - bits) - 1) % 2 ^ 32 = 2 ^ (32 - bits) - 1 := by
    apply Nat.mod_eq_of_lt
    have : (2:Nat) ^ (32 - bits) ≤ 2 ^ 32 := Nat.pow_le_pow_right (by omega) (by omega)
    omega
  rw [htn, hmod]

/-- Stage two of the pool constructor: the pool after reserving the prefix's
own address and the network address, before the IPv4 broadcast branch. -/
theorem NewIPPool_stage2 {f : Fam} {v bits : Nat}
    (hv : v < 2 ^ f.width) (hb : bits ≤ f.width) :
    ∀ q : IPPool,
      reserveIgnore
          (reserveIgnore
            ⟨[], [], [], NetPrefix.NetworkAddr ⟨.ip f v, bits⟩, ⟨.ip f v, bits⟩⟩
            (Addr.ip f v))
          (NetPrefix.NetworkAddr ⟨.ip f v, bits⟩) = q →
      q.pfx = ⟨.ip f v, bits⟩ ∧ q.assigned = [] ∧ q.unassigned = [] ∧
      q.addr = .ip f (v / 2 ^ (f.width - bits) * 2 ^ (f.width - bits)) ∧
      q.reserved.Nodup ∧
      (∀ r ∈ q.reserved, NetPrefix.Contains ⟨.ip f v, bits⟩ r = true) ∧
      (Addr.ip f (v / 2 ^ (f.width - bits) * 2 ^ (f.width - bits))) ∈ q.reserved ∧
      (Addr.ip f v) ∈ q.reserved := by
  intro q hq
  have hpos : 0 < 2 ^ (f.width - bits) := Nat.pos_pow_of_pos _ (by omega)
  have hnet : NetPrefix.NetworkAddr ⟨.ip f v, bits⟩ =
      .ip f (v / 2 ^ (f.width - bits) * 2 ^ (f.width - bits)) :=
    NetPrefix.NetworkAddr_valid hb
  have hcself : NetPrefix.Contains ⟨.ip f v, bits⟩ (.ip f v) = true :=
    NetPrefix.contains_ip_iff.mpr ⟨rfl, hb, rfl⟩
  have hcnet : NetPrefix.Contains ⟨.ip f v, bits⟩
      (.ip f (v / 2 ^ (f.width - bits) * 2 ^ (f.width - bits))) = true := by
    have := (NetPrefix.contains_base_add f v bits 0 hb).mpr hpos
    simpa using this
  subst hq
  refine ⟨?_, ?_, ?_, ?_, ?_, ?_, ?_, ?_⟩
  · rw [reserveIgnore_pfx, reserveIgnore_pfx]
  · rw [reserveIgnore_assigned, reserveIgnore_assigned]
  · rw [reserveIgnore_unassigned, reserveIgnore_unassigned]
  · rw [reserveIgnore_addr, reserveIgnore_addr]
    exact hnet
  · exact reserveIgnore_nodup _ (reserveIgnore_nodup _ List.nodup_nil)
  · have h1 : ∀ r ∈ (reserveIgnore
        (⟨[], [], [], NetPrefix.NetworkAddr ⟨.ip f v, bits⟩, ⟨.ip f v, bits⟩⟩ : IPPool)
        (Addr.ip f v)).reserved, NetPrefix.Contains ⟨.ip f v, bits⟩ r = true := by
      have := reserveIgnore_contains_all
        (p := ⟨[], [], [], NetPrefix.NetworkAddr ⟨.ip f v, bits⟩, ⟨.ip f v, bits⟩⟩)
        (Addr.ip f v) (by intro r hr; cases hr)
      exact this
    have := reserveIgnore_contains_all
      (p := reserveIgnore
        (⟨[], [], [], NetPrefix.NetworkAddr ⟨.ip f v, bits⟩, ⟨.ip f v, bits⟩⟩ : IPPool)
        (Addr.ip f v))
      (NetPrefix.NetworkAddr ⟨.ip f v, bits⟩)
      (by rw [reserveIgnore_pfx]; exact h1)
    rw [reserveIgnore_pfx] at this
    exact this
  · rw [← hnet]
    exact reserveIgnore_mem_self
      (a := NetPrefix.NetworkAddr ⟨.ip f v, bits⟩)
      (by rw [reserveIgnore_pfx, hnet]; exact hcnet)
      (by rw [reserveIgnore_assigned]; simp)
  · exact reserveIgnore_reserved_superset _ _
      (reserveIgnore_mem_self hcself (by simp))

/-- Properties of a pool freshly constructed from a parseable prefix:
prefix and cursor fields, empty assigned/unassigned state, and the reserved
list (duplicate-free, all contained in the prefix, holding the prefix's own
address, the network address and — when the family is IPv4 — the broadcast
address). -/
theorem NewIPPoolFromString_fields {f : Fam} {v bits : Nat} {p0 : IPPool}
    (hv : v < 2 ^ f.width) (hb : bits ≤ f.width)
    (hnew : NewIPPoolFromString (.valid f v bits) = .ok p0) :
    p0.pfx = ⟨.ip f v, bits⟩ ∧
    p0.assigned = [] ∧
    p0.unassigned = [] ∧
    p0.addr = .ip f (v / 2 ^ (f.width - bits) * 2 ^ (f.width - bits)) ∧
    p0.reserved.Nodup ∧
    (∀ r ∈ p0.reserved, NetPrefix.Contains ⟨.ip f v, bits⟩ r = true) ∧
    (Addr.ip f (v / 2 ^ (f.width - bits) * 2 ^ (f.width - bits))) ∈ p0.reserved ∧
    (∀ b, NetPrefix.BroadcastAddr ⟨.ip f v, bits⟩ = .ok b → b ∈ p0.reserved) ∧
    (Addr.ip f v) ∈ p0.reserved := by
  have hpos : 0 < 2 ^ (f.width - bits) := Nat.pos_pow_of_pos _ (by omega)
  obtain ⟨hqpfx, hqassigned, hqunassigned, hqaddr, hqnodup, hqcall, hqmemnet, hqmemv⟩ :=
    NewIPPool_stage2 hv hb _ rfl
  have hred : NewIPPoolFromString (.valid f v bits) =
      (if (reserveIgnore
            (reserveIgnore
              ⟨[], [], [], NetPrefix.NetworkAddr ⟨.ip f v, bits⟩, ⟨.ip f v, bits⟩⟩
              (Addr.ip f v))
            (NetPrefix.NetworkAddr ⟨.ip f v, bits⟩)).addr.Is4 then
        match NetPrefix.BroadcastAddr ⟨.ip f v, bits⟩ with
        | .error e => .error ("failed to get broadcast addr: " ++ e)
        | .ok broadcast => .ok (reserveIgnore
            (reserveIgnore
              (reserveIgnore
                ⟨[], [], [], NetPrefix.NetworkAddr ⟨.ip f v, bits⟩, ⟨.ip f v, bits⟩⟩
                (Addr.ip f v))
              (NetPrefix.NetworkAddr ⟨.ip f v, bits⟩)) broadcast)
      else .ok (reserveIgnore
            (reserveIgnore
              ⟨[], [], [], NetPrefix.NetworkAddr ⟨.ip f v, bits⟩, ⟨.ip f v, bits⟩⟩
              (Addr.ip f v))
            (NetPrefix.NetworkAddr ⟨.ip f v, bits⟩))) := by
    simp only [NewIPPoolFromString, NewNetPrefixFromString_valid hv hb]
  rw [hred, hqaddr] at hnew
  cases f with
  | v6 =>
      simp only [Addr.Is4] at hnew
      rw [if_neg (by simp)] at hnew
      injection hnew with hnew
      subst hnew
      refine ⟨hqpfx, hqassigned, hqunassigned, hqaddr, hqnodup, hqcall,
        hqmemnet, ?_, hqmemv⟩
      intro b hbx
      exact absurd hbx (by simp [NetPrefix.BroadcastAddr, Addr.Is4])
  | v4 =>
      rw [if_pos (show (Addr.ip Fam.v4
        (v / 2 ^ (Fam.width .v4 - bits) * 2 ^ (Fam.width .v4 - bits))).Is4 = true
        from rfl)] at hnew
      by_cases h32 : bits = 32
      · subst h32
        rw [NetPrefix.BroadcastAddr_v4_32 v] at hnew
        injection hnew with hnew
        subst hnew
        refine ⟨by rw [reserveIgnore_pfx]; exact hqpfx,
          by rw [reserveIgnore_assigned]; exact hqassigned,
          by rw [reserveIgnore_unassigned]; exact hqunassigned,
          by rw [reserveIgnore_addr]; exact hqaddr,
          reserveIgnore_nodup _ hqnodup, ?_,
          reserveIgnore_reserved_superset _ _ hqmemnet, ?_,
          reserveIgnore_reserved_superset _ _ hqmemv⟩
        · have := reserveIgnore_contains_all (.ip .v4 v) (by rw [hqpfx]; exact hqcall)
          rw [hqpfx] at this
          exact this
        · intro b hbx
          rw [NetPrefix.BroadcastAddr_v4_32 v] at hbx
          injection hbx with hbx
          subst hbx
          exact reserveIgnore_reserved_superset _ _ hqmemv
      · have hblt : bits < 32 := by
          have hble : bits ≤ 32 := hb
          omega
        rw [NetPrefix.BroadcastAddr_v4_lt hblt] at hnew
        injection hnew with hnew
        subst hnew
        have hcb : NetPrefix.Contains ⟨.ip .v4 v, bits⟩
            (.ip .v4 (Nat.lor (v / 2 ^ (32 - bits) * 2 ^ (32 - bits))
              (2 ^ (32 - bits) - 1))) = true := by
          refine NetPrefix.contains_ip_iff.mpr ⟨rfl, hb, ?_⟩
          show Nat.lor (v / 2 ^ (32 - bits) * 2 ^ (32 - bits))
              (2 ^ (32 - bits) - 1) / 2 ^ (32 - bits) = v / 2 ^ (32 - bits)
          rw [lor_mask_div]
          exact Nat.mul_div_cancel _ hpos
        refine ⟨by rw [reserveIgnore_pfx]; exact hqpfx,
          by rw [reserveIgnore_assigned]; exact hqassigned,
          by rw [reserveIgnore_unassigned]; exact hqunassigned,
          by rw [reserveIgnore_addr]; exact hqaddr,
          reserveIgnore_nodup _ hqnodup, ?_,
          reserveIgnore_reserved_superset _ _ hqmemnet, ?_,
          reserveIgnore_reserved_superset _ _ hqmemv⟩
        · have := reserveIgnore_contains_all
            (.ip .v4 (Nat.lor (v / 2 ^ (32 - bits) * 2 ^ (32 - bits))
              (2 ^ (32 - bits) - 1))) (by rw [hqpfx]; exact hqcall)
          rw [hqpfx] at this
          exact this
        · intro b hbx
          rw [NetPrefix.BroadcastAddr_v4_lt hblt] at hbx
          injection hbx with hbx
          subst hbx
          exact reserveIgnore_mem_self (by rw [hqpfx]; exact hcb)
            (by rw [hqassigned]; simp)

/-! ### The enumeration loop of `Addrs` -/

theorem NetPrefix.addrsLoop_invalid (p : NetPrefix) :
    ∀ fuel, p.addrsLoop fuel .invalid = [] := by
  intro fuel
  cases fuel with
  | zero => rfl
  | succ m =>
      unfold NetPrefix.addrsLoop
      rw [if_neg (by simp [NetPrefix.Contains_invalid])]

theorem NetPrefix.addrsLoop_range {f : Fam} {pv bits base : Nat}
    (hv : pv < 2 ^ f.width) (hb : bits ≤ f.width)
    (hbase : base = pv / 2 ^ (f.width - bits) * 2 ^ (f.width - bits)) :
    ∀ (k fuel j : Nat), j + k = 2 ^ (f.width - bits) → k < fuel →
      NetPrefix.addrsLoop ⟨.ip f pv, bits⟩ fuel (.ip f (base + j)) =
        (List.range k).map (fun i => Addr.ip f (base + j + i)) := by
  have hle : base + 2 ^ (f.width - bits) ≤ 2 ^ f.width := by
    rw [hbase]
    exact NetPrefix.base_add_pow_le hv hb
  intro k
  induction k with
  | zero =>
      intro fuel j hsum hfuel
      obtain ⟨m, rfl⟩ : ∃ m, fuel = m + 1 := ⟨fuel - 1, by omega⟩
      have hc : NetPrefix.Contains ⟨.ip f pv, bits⟩ (.ip f (base + j)) = false := by
        have hiff := NetPrefix.contains_base_add f pv bits j hb
        rw [← hbase] at hiff
        cases hcc : NetPrefix.Contains ⟨.ip f pv, bits⟩ (.ip f (base + j)) with
        | false => rfl
        | true => exact absurd ((hcc ▸ hiff).mp rfl) (by omega)
      unfold NetPrefix.addrsLoop
      rw [if_neg (by simp [hc])]
      rfl
  | succ k ih =>
      intro fuel j hsum hfuel
      obtain ⟨m, rfl⟩ : ∃ m, fuel = m + 1 := ⟨fuel - 1, by omega⟩
      have hj : j < 2 ^ (f.width - bits) := by omega
      have hc : NetPrefix.Contains ⟨.ip f pv, bits⟩ (.ip f (base + j)) = true := by
        have hiff := NetPrefix.contains_base_add f pv bits j hb
        rw [← hbase] at hiff
        exact hiff.mpr hj
      have hstep : NetPrefix.addrsLoop ⟨.ip f pv, bits⟩ (m + 1) (.ip f (base + j)) =
          (.ip f (base + j)) ::
            NetPrefix.addrsLoop ⟨.ip f pv, bits⟩ m (Addr.Next (.ip f (base + j))) := by
        conv_lhs => unfold NetPrefix.addrsLoop
        rw [if_pos hc]
      rw [hstep, List.range_succ_eq_map, List.map_cons, List.map_map]
      refine List.cons_eq_cons.mpr ⟨by simp, ?_⟩
      by_cases hlt : base + j + 1 < 2 ^ f.width
      · have hnext : (Addr.ip f (base + j)).Next = .ip f (base + (j + 1)) := by
          simp only [Addr.Next]
          rw [if_pos hlt, Nat.add_assoc]
        rw [hnext, ih m (j + 1) (by omega) (by omega)]
        apply List.map_congr_left
        intro i _
        simp only [Function.comp_apply, Nat.succ_eq_add_one]
        congr 1
        omega
      · have hend : base + j + 1 = 2 ^ f.width := by omega
        have hk : k = 0 := by omega
        subst hk
        have hnext : (Addr.ip f (base + j)).Next = .invalid := by
          simp only [Addr.Next]
          rw [if_neg (by omega)]
        rw [hnext, NetPrefix.addrsLoop_invalid]
        rfl

/-! ### Inversion lemmas for `Get` and `Put` -/

theorem IPPool.Get_ok_inv {p p' : IPPool} {a : Addr} (h : p.Get = (.ok a, p')) :
    (∃ rest, p.unassigned = a :: rest ∧
       p' = { p with unassigned := rest, assigned := setInsert a p.assigned }) ∨
    (p.unassigned = [] ∧ p.pfx.Contains a = true ∧ a ∉ p.reserved ∧
       p' = { p with addr := a.Next, assigned := setInsert a p.assigned }) := by
  unfold IPPool.Get at h
  cases hu : p.unassigned with
  | cons b rest =>
      rw [hu] at h
      injection h with h1 h2
      injection h1 with h1
      subst h1
      subst h2
      exact Or.inl ⟨rest, rfl, rfl⟩
  | nil =>
      rw [hu] at h
      rcases hs : IPPool.getScan p.pfx p.reserved p.addr.scanFuel p.addr with ⟨o, c⟩
      rw [hs] at h
      cases o with
      | none => exact absurd h (by simp)
      | some b =>
          injection h with h1 h2
          injection h1 with h1
          subst h1
          subst h2
          obtain ⟨hc, hnr, hcn⟩ := IPPool.getScan_some p.pfx p.reserved _ _ _ _ hs
          exact Or.inr ⟨rfl, hc, hnr, by rw [← hcn]⟩

theorem IPPool.Put_ok_inv {p p' : IPPool} {a : Addr} (h : p.Put a = .ok p') :
    a ∈ p.assigned ∧ p' = { p with
        assigned := setDelete a p.assigned,
        unassigned := p.unassigned ++ [a] } := by
  unfold IPPool.Put at h
  by_cases hm : a ∈ p.assigned
  · rw [if_pos hm] at h
    injection h with h
    exact ⟨hm, h.symm⟩
  · rw [if_neg hm] at h
    exact absurd h (by simp)

theorem IPPool.Put_ok_reserved {p p' : IPPool} {a : Addr} (h : p.Put a = .ok p') :
    p'.reserved = p.reserved := by
  obtain ⟨-, rfl⟩ := IPPool.Put_ok_inv h
  rfl

/-! ### Reachability by `Get`/`Put` calls and the reserved-address invariant -/

theorem PoolStep.step_reserved_eq {p q : IPPool} (h : PoolStep p q) :
    q.reserved = p.reserved := by
  cases h with
  | get => exact IPPool.Get_reserved p
  | put _ a hput => exact IPPool.Put_ok_reserved hput

theorem IPPool.Get_snd_cases (p : IPPool) :
    (p.Get).2 = p ∨
    (∃ a p', p.Get = (.ok a, p') ∧ (p.Get).2 = p') ∨
    (∃ c, (p.Get).2 = { p with addr := c }) := by
  rcases hg : p.Get with ⟨r, p'⟩
  cases r with
  | ok a => exact Or.inr (Or.inl ⟨a, p', rfl, rfl⟩)
  | error e =>
      unfold IPPool.Get at hg
      cases hu : p.unassigned with
      | cons b rest =>
          rw [hu] at hg
          exact absurd hg (by simp)
      | nil =>
          rw [hu] at hg
          rcases hs : IPPool.getScan p.pfx p.reserved p.addr.scanFuel p.addr with ⟨o, c⟩
          rw [hs] at hg
          cases o with
          | some b => exact absurd hg (by simp)
          | none =>
              injection hg with h1 h2
              exact Or.inr (Or.inr ⟨c, h2.symm⟩)

theorem PoolStep.step_inv {p q : IPPool} (hs : PoolStep p q) (h : PoolInv p) :
    PoolInv q := by
  cases hs with
  | get =>
      rcases IPPool.Get_snd_cases p with he | ⟨a, p', hg, he⟩ | ⟨c, he⟩
      · rw [he]
        exact h
      · rw [he]
        rcases IPPool.Get_ok_inv hg with ⟨rest, hu, rfl⟩ | ⟨hu, hc, hnr, rfl⟩
        · constructor
          · intro b hb
            rcases mem_setInsert.mp hb with rfl | hb
            · exact h.2 b (hu ▸ List.mem_cons_self b rest)
            · exact h.1 b hb
          · intro b hb
            exact h.2 b (hu ▸ List.mem_cons_of_mem a hb)
        · constructor
          · intro b hb
            rcases mem_setInsert.mp hb with rfl | hb
            · exact hnr
            · exact h.1 b hb
          · exact h.2
      · rw [he]
        exact h
  | put _ a hput =>
      obtain ⟨hmem, rfl⟩ := IPPool.Put_ok_inv hput
      constructor
      · intro b hb
        have hb' : b ∈ p.assigned := List.mem_of_mem_filter hb
        exact h.1 b hb'
      · intro b hb
        rcases List.mem_append.mp hb with hb | hb
        · exact h.2 b hb
        · rcases List.mem_singleton.mp hb with rfl
          exact h.1 b hmem

theorem PoolReach.reach_reserved_eq {p q : IPPool} (h : PoolReach p q) :
    q.reserved = p.reserved := by
  induction h with
  | refl => rfl
  | tail hto hstep ih => exact (PoolStep.step_reserved_eq hstep).trans ih

theorem PoolReach.reach_inv {p q : IPPool} (h : PoolReach p q) (hp : PoolInv p) :
    PoolInv q := by
  induction h with
  | refl => exact hp
  | tail hto hstep ih => exact PoolStep.step_inv hstep ih

theorem IPPool.Get_ok_not_reserved {p p' : IPPool} {a : Addr}
    (hinv : PoolInv p) (h : p.Get = (.ok a, p')) : a ∉ p.reserved := by
  rcases IPPool.Get_ok_inv h with ⟨rest, hu, -⟩ | ⟨-, -, hnr, -⟩
  · exact hinv.2 a (hu ▸ List.mem_cons_self a rest)
  · exact hnr

/-! ### Lemmas about the multi-pool acquisition of `PeerManager.Put` -/

theorem acquireAddrs_cons_ok {p p' : IPPool} {ps : List IPPool} {a : Addr}
    (h : p.Get = (.ok a, p')) :
    acquireAddrs (p :: ps) =
      ((a, p') :: (acquireAddrs ps).1, (acquireAddrs ps).2) := by
  conv_lhs => unfold acquireAddrs
  rw [h]

theorem acquireAddrs_cons_err {p p' : IPPool} {ps : List IPPool} {e : String}
    (h : p.Get = (.error e, p')) :
    acquireAddrs (p :: ps) =
      ([], p' :: ps, some ("failed to get addr from pool: " ++ e)) := by
  conv_lhs => unfold acquireAddrs
  rw [h]

/-! ### Claim theorems -/

/-- C3: the claim states that `Validate()` returns an error for every block
whose `Len()` exceeds the configured maximum.  The source's `Validate` returns
`nil` unconditionally, contradicting its own doc comment ("checks if the
NetPrefix block size is within limits"): at the 10.0.0.0/8 block, whose
`Len()` is `2 ^ 24 > maxNetPrefixSize`, `Validate()` still returns no
error. -/
theorem C3_validate_codebug :
    NetPrefix.Validate ⟨.ip .v4 167772160, 8⟩ = none ∧
    NetPrefix.Len ⟨.ip .v4 167772160, 8⟩ > maxNetPrefixSize := by
  exact ⟨rfl, by decide⟩

/-- C9: the pool built from the empty CIDR string is constructed without
error (a degenerate pool with the zero prefix, an invalid cursor and nothing
reserved), and any number of consecutive `Get()` calls fails immediately
with the pool-empty error and leaves the pool state unchanged — the
degenerate pool never leases an address. -/
theorem C9_degenerate_pool :
    NewIPPoolFromString .empty =
      .ok ⟨[], [], [], .invalid, ⟨.invalid, 0⟩⟩ ∧
    ∀ n : Nat, IPPool.getN n ⟨[], [], [], .invalid, ⟨.invalid, 0⟩⟩ =
      ([], ⟨[], [], [], .invalid, ⟨.invalid, 0⟩⟩,
        if n = 0 then none else some "pool is empty") := by
  refine ⟨by decide, ?_⟩
  intro n
  cases n with
  | zero => decide
  | succ n =>
      have hget : IPPool.Get ⟨[], [], [], .invalid, ⟨.invalid, 0⟩⟩ =
          (.error "pool is empty", ⟨[], [], [], .invalid, ⟨.invalid, 0⟩⟩) := by
        decide
      rw [IPPool.getN_succ_err hget n]
      simp

/-- C6: for an address obtained from `Get()` and currently held, the first
`Put()` succeeds, removing it from `assigned` and appending it to the
recycled queue, and an immediately following second `Put()` with the same
address fails with `NotAssignedError` (the source's "addr is not assigned",
whose error path performs no state change). -/
theorem C6_put_roundtrip (p p1 : IPPool) (a : Addr)
    (hget : p.Get = (.ok a, p1)) :
    ∃ p2 : IPPool,
      p1.Put a = .ok p2 ∧
      p2.assigned = setDelete a p1.assigned ∧
      p2.unassigned = p1.unassigned ++ [a] ∧
      a ∉ p2.assigned ∧
      p2.Put a = .error "addr is not assigned" := by
  have hmem := IPPool.Get_ok_mem_assigned hget
  refine ⟨_, IPPool.Put_ok hmem, rfl, rfl, ?_, ?_⟩
  · simp [setDelete]
  · exact IPPool.Put_err (by simp [setDelete])

/-- C6 witness: the round trip evaluated on the 10.8.0.0/30 pool right after
its first `Get()` returned 10.8.0.1. -/
theorem C6_put_roundtrip_witness :
    ∃ p2 : IPPool,
      IPPool.Put ⟨[.ip .v4 168296449], [.ip .v4 168296451, .ip .v4 168296448],
        [], .ip .v4 168296450, ⟨.ip .v4 168296448, 30⟩⟩ (.ip .v4 168296449) =
        .ok p2 ∧
      p2.assigned = setDelete (.ip .v4 168296449) [.ip .v4 168296449] ∧
      p2.unassigned = [] ++ [.ip .v4 168296449] ∧
      (Addr.ip .v4 168296449) ∉ p2.assigned ∧
      p2.Put (.ip .v4 168296449) = .error "addr is not assigned" :=
  C6_put_roundtrip
    ⟨[], [.ip .v4 168296451, .ip .v4 168296448], [], .ip .v4 168296448,
      ⟨.ip .v4 168296448, 30⟩⟩
    ⟨[.ip .v4 168296449], [.ip .v4 168296451, .ip .v4 168296448], [],
      .ip .v4 168296450, ⟨.ip .v4 168296448, 30⟩⟩
    (.ip .v4 168296449) (by decide)

/-- C10: after `Get()` returns an in-prefix, unreserved address and `Put`
recycles it, a subsequent `Reserve` of that address succeeds (`Reserve` only
rejects out-of-prefix addresses and addresses currently assigned or
reserved), and the reservation does not remove the address from the recycled
queue. -/
theorem C10_reserve_recycled (p p1 p2 : IPPool) (a : Addr)
    (hget : p.Get = (.ok a, p1))
    (hc : p.pfx.Contains a = true)
    (hnr : a ∉ p.reserved)
    (hput : p1.Put a = .ok p2) :
    ∃ p3 : IPPool, p2.Reserve a = .ok p3 ∧
      p3.unassigned = p2.unassigned ∧ a ∈ p3.unassigned := by
  have hp1 : (p.Get).2 = p1 := by rw [hget]
  have hp1pfx : p1.pfx = p.pfx := by rw [← hp1, IPPool.Get_pfx]
  have hp1res : p1.reserved = p.reserved := by rw [← hp1, IPPool.Get_reserved]
  obtain ⟨hmem, rfl⟩ := IPPool.Put_ok_inv hput
  refine ⟨_, IPPool.Reserve_ok ?_ (by simp [setDelete]) ?_, rfl, ?_⟩
  · show p1.pfx.Contains a = true
    rw [hp1pfx]
    exact hc
  · show a ∉ p1.reserved
    rw [hp1res]
    exact hnr
  · show a ∈ p1.unassigned ++ [a]
    simp

/-- C10 witness: reserving 10.8.0.1 on the 10.8.0.0/30 pool right after
`Get(); Put(10.8.0.1)` succeeds and keeps the address in the recycled
queue. -/
theorem C10_reserve_recycled_witness :
    ∃ p3 : IPPool,
      IPPool.Reserve ⟨[], [.ip .v4 168296451, .ip .v4 168296448],
        [.ip .v4 168296449], .ip .v4 168296450, ⟨.ip .v4 168296448, 30⟩⟩
        (.ip .v4 168296449) = .ok p3 ∧
      p3.unassigned = (⟨[], [.ip .v4 168296451, .ip .v4 168296448],
        [.ip .v4 168296449], .ip .v4 168296450,
        ⟨.ip .v4 168296448, 30⟩⟩ : IPPool).unassigned ∧
      (Addr.ip .v4 168296449) ∈ p3.unassigned :=
  C10_reserve_recycled
    ⟨[], [.ip .v4 168296451, .ip .v4 168296448], [], .ip .v4 168296448,
      ⟨.ip .v4 168296448, 30⟩⟩
    ⟨[.ip .v4 168296449], [.ip .v4 168296451, .ip .v4 168296448], [],
      .ip .v4 168296450, ⟨.ip .v4 168296448, 30⟩⟩
    ⟨[], [.ip .v4 168296451, .ip .v4 168296448], [.ip .v4 168296449],
      .ip .v4 168296450, ⟨.ip .v4 168296448, 30⟩⟩
    (.ip .v4 168296449) (by decide) (by decide) (by decide) (by decide)

/-- C5 counterexample: the claim "after `Get()` returning addr, then
`Put(addr)`, the next `Get()` returns addr again" fails on a pool whose
recycled queue already holds two addresses.  On the 10.8.0.0/29 pool, after
`Get()→.1, Get()→.2, Put(.1), Put(.2)` the queue is `[.1, .2]`; then the
claim's sequence `Get()→.1, Put(.1)` leaves the queue `[.2, .1]`, and the
next `Get()` returns 10.8.0.2, not 10.8.0.1 — FIFO reuse serves the head of
the queue, which is not the address just released. -/
theorem C5_counterexample :
    NewIPPoolFromString (.valid .v4 168296448 29) =
      .ok ⟨[], [.ip .v4 168296455, .ip .v4 168296448], [], .ip .v4 168296448,
        ⟨.ip .v4 168296448, 29⟩⟩ ∧
    IPPool.getN 2 ⟨[], [.ip .v4 168296455, .ip .v4 168296448], [],
        .ip .v4 168296448, ⟨.ip .v4 168296448, 29⟩⟩ =
      ([.ip .v4 168296449, .ip .v4 168296450],
       ⟨[.ip .v4 168296450, .ip .v4 168296449],
        [.ip .v4 168296455, .ip .v4 168296448], [], .ip .v4 168296451,
        ⟨.ip .v4 168296448, 29⟩⟩, none) ∧
    IPPool.Put ⟨[.ip .v4 168296450, .ip .v4 168296449],
        [.ip .v4 168296455, .ip .v4 168296448], [], .ip .v4 168296451,
        ⟨.ip .v4 168296448, 29⟩⟩ (.ip .v4 168296449) =
      .ok ⟨[.ip .v4 168296450], [.ip .v4 168296455, .ip .v4 168296448],
        [.ip .v4 168296449], .ip .v4 168296451, ⟨.ip .v4 168296448, 29⟩⟩ ∧
    IPPool.Put ⟨[.ip .v4 168296450], [.ip .v4 168296455, .ip .v4 168296448],
        [.ip .v4 168296449], .ip .v4 168296451, ⟨.ip .v4 168296448, 29⟩⟩
        (.ip .v4 168296450) =
      .ok ⟨[], [.ip .v4 168296455, .ip .v4 168296448],
        [.ip .v4 168296449, .ip .v4 168296450], .ip .v4 168296451,
        ⟨.ip .v4 168296448, 29⟩⟩ ∧
    IPPool.Get ⟨[], [.ip .v4 168296455, .ip .v4 168296448],
        [.ip .v4 168296449, .ip .v4 168296450], .ip .v4 168296451,
        ⟨.ip .v4 168296448, 29⟩⟩ =
      (.ok (.ip .v4 168296449),
       ⟨[.ip .v4 168296449], [.ip .v4 168296455, .ip .v4 168296448],
        [.ip .v4 168296450], .ip .v4 168296451, ⟨.ip .v4 168296448, 29⟩⟩) ∧
    IPPool.Put ⟨[.ip .v4 168296449], [.ip .v4 168296455, .ip .v4 168296448],
        [.ip .v4 168296450], .ip .v4 168296451, ⟨.ip .v4 168296448, 29⟩⟩
        (.ip .v4 168296449) =
      .ok ⟨[], [.ip .v4 168296455, .ip .v4 168296448],
        [.ip .v4 168296450, .ip .v4 168296449], .ip .v4 168296451,
        ⟨.ip .v4 168296448, 29⟩⟩ ∧
    (IPPool.Get ⟨[], [.ip .v4 168296455, .ip .v4 168296448],
        [.ip .v4 168296450, .ip .v4 168296449], .ip .v4 168296451,
        ⟨.ip .v4 168296448, 29⟩⟩).1 = .ok (.ip .v4 168296450) ∧
    (Addr.ip .v4 168296450) ≠ (.ip .v4 168296449) := by
  decide

/-- C5 (amended): on a pool whose recycled queue holds at most one address
when the first `Get()` is called, after `Get()` returning `a` and `Put(a)`,
the next `Get()` returns `a` again — with a longer queue, FIFO reuse serves
the older recycled address first, so the general claim is amended with this
queue-length precondition. -/
theorem C5_recycling_amended (p p1 : IPPool) (a : Addr)
    (hq : p.unassigned.length ≤ 1)
    (hget : p.Get = (.ok a, p1)) :
    ∃ p2 : IPPool, p1.Put a = .ok p2 ∧ (p2.Get).1 = .ok a := by
  have hmem := IPPool.Get_ok_mem_assigned hget
  refine ⟨_, IPPool.Put_ok hmem, ?_⟩
  rcases IPPool.Get_ok_inv hget with ⟨rest, hu, rfl⟩ | ⟨hu, -, -, rfl⟩
  · have hrest : rest = [] := by
      have hl := congrArg List.length hu
      simp only [List.length_cons] at hl
      have : rest.length = 0 := by omega
      exact List.length_eq_zero.mp this
    subst hrest
    rw [IPPool.Get_pop (a := a) rfl]
  · rw [IPPool.Get_pop (a := a)
      (by show p.unassigned ++ [a] = [a]; rw [hu]; rfl)]

/-- C5 witness for the amended claim: the 10.8.0.0/30 pool directly after
construction (empty recycled queue). -/
theorem C5_recycling_witness :
    ∃ p2 : IPPool,
      IPPool.Put ⟨[.ip .v4 168296449], [.ip .v4 168296451, .ip .v4 168296448],
        [], .ip .v4 168296450, ⟨.ip .v4 168296448, 30⟩⟩ (.ip .v4 168296449) =
        .ok p2 ∧
      (p2.Get).1 = .ok (.ip .v4 168296449) :=
  C5_recycling_amended
    ⟨[], [.ip .v4 168296451, .ip .v4 168296448], [], .ip .v4 168296448,
      ⟨.ip .v4 168296448, 30⟩⟩
    ⟨[.ip .v4 168296449], [.ip .v4 168296451, .ip .v4 168296448], [],
      .ip .v4 168296450, ⟨.ip .v4 168296448, 30⟩⟩
    (.ip .v4 168296449) (by decide) (by decide)

/-- C2: the claimed invariant "after each call the assigned set and the
reserved set are disjoint, and an address returned by `Get` is absent from
`reserved`" is violated by the code: on the 10.8.0.0/30 pool, after
`Get()→10.8.0.1, Put(10.8.0.1), Reserve(10.8.0.1)` (which succeeds, C10),
the next `Get()` pops 10.8.0.1 from the recycled queue without checking
`reserved`, leaving 10.8.0.1 both assigned and reserved.  The `Reserve` doc
comment ("ensuring it cannot be assigned") and the spec mark the invariant
as intended, so this is a code bug. -/
theorem C2_disjointness_codebug :
    NewIPPoolFromString (.valid .v4 168296448 30) =
      .ok ⟨[], [.ip .v4 168296451, .ip .v4 168296448], [], .ip .v4 168296448,
        ⟨.ip .v4 168296448, 30⟩⟩ ∧
    IPPool.Get ⟨[], [.ip .v4 168296451, .ip .v4 168296448], [],
        .ip .v4 168296448, ⟨.ip .v4 168296448, 30⟩⟩ =
      (.ok (.ip .v4 168296449),
       ⟨[.ip .v4 168296449], [.ip .v4 168296451, .ip .v4 168296448], [],
        .ip .v4 168296450, ⟨.ip .v4 168296448, 30⟩⟩) ∧
    IPPool.Put ⟨[.ip .v4 168296449], [.ip .v4 168296451, .ip .v4 168296448],
        [], .ip .v4 168296450, ⟨.ip .v4 168296448, 30⟩⟩ (.ip .v4 168296449) =
      .ok ⟨[], [.ip .v4 168296451, .ip .v4 168296448], [.ip .v4 168296449],
        .ip .v4 168296450, ⟨.ip .v4 168296448, 30⟩⟩ ∧
    IPPool.Reserve ⟨[], [.ip .v4 168296451, .ip .v4 168296448],
        [.ip .v4 168296449], .ip .v4 168296450, ⟨.ip .v4 168296448, 30⟩⟩
        (.ip .v4 168296449) =
      .ok ⟨[], [.ip .v4 168296449, .ip .v4 168296451, .ip .v4 168296448],
        [.ip .v4 168296449], .ip .v4 168296450, ⟨.ip .v4 168296448, 30⟩⟩ ∧
    IPPool.Get ⟨[], [.ip .v4 168296449, .ip .v4 168296451, .ip .v4 168296448],
        [.ip .v4 168296449], .ip .v4 168296450, ⟨.ip .v4 168296448, 30⟩⟩ =
      (.ok (.ip .v4 168296449),
       ⟨[.ip .v4 168296449],
        [.ip .v4 168296449, .ip .v4 168296451, .ip .v4 168296448], [],
        .ip .v4 168296450, ⟨.ip .v4 168296448, 30⟩⟩) ∧
    (Addr.ip .v4 168296449) ∈
      ([.ip .v4 168296449] : List Addr) ∧
    (Addr.ip .v4 168296449) ∈
      ([.ip .v4 168296449, .ip .v4 168296451, .ip .v4 168296448] : List Addr) := by
  decide

/-- C7: for a pool built from a non-degenerate (parseable) prefix, the
network address and — for IPv4 — the broadcast address are reserved at
construction, and no sequence of `Get`/`Put` calls can make `Get()` return
either of them: any address a successful `Get` returns after any reachable
sequence differs from the network address and from the broadcast address. -/
theorem C7_reserved_never_leased {f : Fam} {v bits : Nat} {p0 p q : IPPool}
    {a : Addr}
    (hv : v < 2 ^ f.width) (hb : bits ≤ f.width)
    (hnew : NewIPPoolFromString (.valid f v bits) = .ok p0)
    (hreach : PoolReach p0 p)
    (hget : p.Get = (.ok a, q)) :
    a ≠ p0.pfx.NetworkAddr ∧
    ∀ b, p0.pfx.BroadcastAddr = .ok b → a ≠ b := by
  obtain ⟨hpfx, hassigned, hunassigned, -, -, -, hmemnet, hmemb, -⟩ :=
    NewIPPoolFromString_fields hv hb hnew
  have hinv0 : PoolInv p0 := by
    constructor
    · rw [hassigned]
      simp
    · rw [hunassigned]
      simp
  have hnr : a ∉ p0.reserved := by
    have h1 := IPPool.Get_ok_not_reserved (PoolReach.reach_inv hreach hinv0) hget
    rw [PoolReach.reach_reserved_eq hreach] at h1
    exact h1
  constructor
  · intro heq
    apply hnr
    rw [heq, hpfx, NetPrefix.NetworkAddr_valid hb]
    exact hmemnet
  · intro b hbx heq
    apply hnr
    rw [heq]
    apply hmemb
    rw [← hpfx]
    exact hbx

/-- C7 witness: on the freshly constructed 10.8.0.0/30 pool, the first
`Get()` returns 10.8.0.1, which is neither the network address 10.8.0.0 nor
the broadcast address 10.8.0.3. -/
theorem C7_reserved_never_leased_witness :
    (Addr.ip .v4 168296449) ≠
      (⟨[], [.ip .v4 168296451, .ip .v4 168296448], [], .ip .v4 168296448,
        ⟨.ip .v4 168296448, 30⟩⟩ : IPPool).pfx.NetworkAddr ∧
    ∀ b, (⟨[], [.ip .v4 168296451, .ip .v4 168296448], [], .ip .v4 168296448,
        ⟨.ip .v4 168296448, 30⟩⟩ : IPPool).pfx.BroadcastAddr = .ok b →
      (Addr.ip .v4 168296449) ≠ b :=
  @C7_reserved_never_leased .v4 168296448 30
    ⟨[], [.ip .v4 168296451, .ip .v4 168296448], [], .ip .v4 168296448,
      ⟨.ip .v4 168296448, 30⟩⟩
    ⟨[], [.ip .v4 168296451, .ip .v4 168296448], [], .ip .v4 168296448,
      ⟨.ip .v4 168296448, 30⟩⟩
    ⟨[.ip .v4 168296449], [.ip .v4 168296451, .ip .v4 168296448], [],
      .ip .v4 168296450, ⟨.ip .v4 168296448, 30⟩⟩
    (.ip .v4 168296449)
    (by decide) (by decide) (by decide) Relation.ReflTransGen.refl (by decide)

/-- C8: for every valid (parseable) prefix, `Addrs` fails with the
too-large error exactly when `Len()` exceeds `maxNetPrefixSize`, and
otherwise returns every address of the block — all `2 ^ (addrBits −
prefixBits)` of them, in ascending order starting at the network address. -/
theorem C8_enumeration (f : Fam) (v bits : Nat)
    (hv : v < 2 ^ f.width) (hb : bits ≤ f.width) :
    (NetPrefix.Addrs ⟨.ip f v, bits⟩ = .error "prefix block size is too large" ↔
      NetPrefix.Len ⟨.ip f v, bits⟩ > maxNetPrefixSize) ∧
    (NetPrefix.Len ⟨.ip f v, bits⟩ ≤ maxNetPrefixSize →
      NetPrefix.Addrs ⟨.ip f v, bits⟩ =
        .ok ((List.range (2 ^ (f.width - bits))).map
          (fun i => Addr.ip f
            (v / 2 ^ (f.width - bits) * 2 ^ (f.width - bits) + i)))) := by
  have hnet : NetPrefix.NetworkAddr ⟨.ip f v, bits⟩ =
      .ip f (v / 2 ^ (f.width - bits) * 2 ^ (f.width - bits)) :=
    NetPrefix.NetworkAddr_valid hb
  by_cases hgt : NetPrefix.Len ⟨.ip f v, bits⟩ > maxNetPrefixSize
  · refine ⟨⟨fun _ => hgt, fun _ => ?_⟩, fun hle => absurd hle (by omega)⟩
    unfold NetPrefix.Addrs
    rw [if_pos hgt]
  · constructor
    · constructor
      · intro herr
        unfold NetPrefix.Addrs at herr
        rw [if_neg hgt] at herr
        exact absurd herr (by simp)
      · intro h
        exact absurd h hgt
    · intro hle
      unfold NetPrefix.Addrs
      rw [if_neg hgt, hnet]
      congr 1
      have hbase_lt : v / 2 ^ (f.width - bits) * 2 ^ (f.width - bits) <
          2 ^ f.width :=
        Nat.lt_of_le_of_lt (Nat.div_mul_le_self v _) hv
      have hfuel : 2 ^ (f.width - bits) <
          (Addr.ip f (v / 2 ^ (f.width - bits) * 2 ^ (f.width - bits))).scanFuel := by
        simp only [Addr.scanFuel]
        rw [Nat.min_eq_left (Nat.le_of_lt hbase_lt)]
        have := NetPrefix.base_add_pow_le hv hb
        omega
      have hrange := NetPrefix.addrsLoop_range hv hb rfl (2 ^ (f.width - bits))
        ((Addr.ip f (v / 2 ^ (f.width - bits) * 2 ^ (f.width - bits))).scanFuel)
        0 (by omega) hfuel
      simpa using hrange

/-- C8 witness: on the 10.8.0.0/30 block `Addrs` succeeds with the four
addresses 10.8.0.0–10.8.0.3 in ascending order, and `Len() ≤
maxNetPrefixSize` matches the absence of the error. -/
theorem C8_enumeration_witness :
    (NetPrefix.Addrs ⟨.ip .v4 168296448, 30⟩ =
        .error "prefix block size is too large" ↔
      NetPrefix.Len ⟨.ip .v4 168296448, 30⟩ > maxNetPrefixSize) ∧
    (NetPrefix.Len ⟨.ip .v4 168296448, 30⟩ ≤ maxNetPrefixSize →
      NetPrefix.Addrs ⟨.ip .v4 168296448, 30⟩ =
        .ok ((List.range (2 ^ (Fam.width .v4 - 30))).map
          (fun i => Addr.ip .v4
            (168296448 / 2 ^ (Fam.width .v4 - 30) * 2 ^ (Fam.width .v4 - 30) +
              i)))) :=
  C8_enumeration .v4 168296448 30 (by decide) (by decide)

/-- C4: for a pool built from a non-degenerate (parseable) prefix with
exactly `N = 2 ^ (addrBits − prefixBits) − |reserved-at-construction|`
leasable addresses, `N` consecutive `Get()` calls (no interleaved `Put` or
`Reserve`) all succeed and return `N` pairwise-distinct addresses, and the
`(N+1)`-th `Get()` fails with the pool-exhausted error (the source's
"pool is empty"). -/
theorem C4_exhaustion {f : Fam} {v bits : Nat} {p0 : IPPool}
    (hv : v < 2 ^ f.width) (hb : bits ≤ f.width)
    (hnew : NewIPPoolFromString (.valid f v bits) = .ok p0) :
    (IPPool.getN (2 ^ (f.width - bits) - p0.reserved.length) p0).2.2 = none ∧
    (IPPool.getN (2 ^ (f.width - bits) - p0.reserved.length) p0).1.length =
      2 ^ (f.width - bits) - p0.reserved.length ∧
    (IPPool.getN (2 ^ (f.width - bits) - p0.reserved.length) p0).1.Nodup ∧
    (IPPool.getN (2 ^ (f.width - bits) - p0.reserved.length + 1) p0).2.2 =
      some "pool is empty" := by
  obtain ⟨hpfx, hassigned, hunassigned, haddr, hnodup, hcall, -, -, -⟩ :=
    NewIPPoolFromString_fields hv hb hnew
  have hsweep := IPPool.sweep hv hb rfl (2 ^ (f.width - bits)) p0 0 hpfx
    hunassigned (by rw [haddr]; simp) (by omega)
  have hsub : ∀ r ∈ p0.reserved,
      r ∈ blockSeg f (v / 2 ^ (f.width - bits) * 2 ^ (f.width - bits) + 0)
        (2 ^ (f.width - bits)) := by
    intro r hr
    have hmem := mem_blockSeg_of_contains (hcall r hr)
    simpa using hmem
  have hlen : (freeSeg f (v / 2 ^ (f.width - bits) * 2 ^ (f.width - bits) + 0)
      (2 ^ (f.width - bits)) p0.reserved).length =
      2 ^ (f.width - bits) - p0.reserved.length := by
    unfold freeSeg
    rw [length_filter_not_mem (blockSeg_nodup _ _ _) hnodup hsub, blockSeg_length]
  rw [hlen] at hsweep
  refine ⟨hsweep.2.1, ?_, ?_, hsweep.2.2⟩
  · rw [hsweep.1, hlen]
  · rw [hsweep.1]
    exact freeSeg_nodup _ _ _ _

/-- C4 witness: the 10.8.0.0/30 pool has two reserved and two leasable
addresses; both `Get()` calls succeed with distinct addresses and the third
fails. -/
theorem C4_exhaustion_witness :
    (IPPool.getN 2 ⟨[], [.ip .v4 168296451, .ip .v4 168296448], [],
      .ip .v4 168296448, ⟨.ip .v4 168296448, 30⟩⟩).2.2 = none ∧
    (IPPool.getN 2 ⟨[], [.ip .v4 168296451, .ip .v4 168296448], [],
      .ip .v4 168296448, ⟨.ip .v4 168296448, 30⟩⟩).1.length = 2 ∧
    (IPPool.getN 2 ⟨[], [.ip .v4 168296451, .ip .v4 168296448], [],
      .ip .v4 168296448, ⟨.ip .v4 168296448, 30⟩⟩).1.Nodup ∧
    (IPPool.getN 3 ⟨[], [.ip .v4 168296451, .ip .v4 168296448], [],
      .ip .v4 168296448, ⟨.ip .v4 168296448, 30⟩⟩).2.2 =
      some "pool is empty" :=
  @C4_exhaustion .v4 168296448 30
    ⟨[], [.ip .v4 168296451, .ip .v4 168296448], [], .ip .v4 168296448,
      ⟨.ip .v4 168296448, 30⟩⟩
    (by decide) (by decide) (by decide)

/-- C1: for a registry over two pools where the first pool's `Get()` yields a
fresh address and every `Get()` on the second pool fails, `Acquire`
(`PeerManager.Put`) with a fresh non-empty id fails with the wrapped pool
error, the address obtained from the first pool is returned to it via
`Put()` (its assigned set equals its pre-call value and the address sits in
its recycled queue), the peer map is unchanged and `Lookup`
(`PeerManager.Get`) reports the id absent. -/
theorem C1_rollback_atomicity (m : List (String × Peer)) (p1 p2 p1' p2' : IPPool)
    (id : String) (a : Addr) (e : String)
    (hid : id ≠ "") (hfresh : m.lookup id = none)
    (h1 : p1.Get = (.ok a, p1')) (hna : a ∉ p1.assigned)
    (h2 : p2.Get = (.error e, p2')) :
    ∃ q1 : IPPool,
      (PeerManager.Put ⟨m, [p1, p2]⟩ id).1 =
        .error ("failed to get addr from pool: " ++ e) ∧
      (PeerManager.Put ⟨m, [p1, p2]⟩ id).2 = ⟨m, [q1, p2']⟩ ∧
      q1.assigned = p1.assigned ∧
      a ∈ q1.unassigned ∧
      PeerManager.Get (PeerManager.Put ⟨m, [p1, p2]⟩ id).2 id = none := by
  have hmem := IPPool.Get_ok_mem_assigned h1
  have hacq : acquireAddrs [p1, p2] =
      ([(a, p1')], [p2'], some ("failed to get addr from pool: " ++ e)) := by
    rw [acquireAddrs_cons_ok h1, acquireAddrs_cons_err h2]
  have hput := IPPool.Put_ok (p := p1') (a := a) hmem
  have hrb : rollbackAddrs [(a, p1')] =
      .ok [{ p1' with
        assigned := setDelete a p1'.assigned,
        unassigned := p1'.unassigned ++ [a] }] := by
    unfold rollbackAddrs
    rw [hput]
    rfl
  have hPut : PeerManager.Put ⟨m, [p1, p2]⟩ id =
      (.error ("failed to get addr from pool: " ++ e),
       ⟨m, [{ p1' with
          assigned := setDelete a p1'.assigned,
          unassigned := p1'.unassigned ++ [a] }, p2']⟩) := by
    unfold PeerManager.Put
    rw [if_neg hid, if_neg (by simp [hfresh])]
    simp only [hacq, hrb]
    rfl
  refine ⟨{ p1' with
      assigned := setDelete a p1'.assigned,
      unassigned := p1'.unassigned ++ [a] }, ?_, ?_, ?_, ?_, ?_⟩
  · rw [hPut]
  · rw [hPut]
  · show setDelete a p1'.assigned = p1.assigned
    rw [IPPool.Get_ok_assigned h1]
    exact setDelete_setInsert a p1.assigned hna
  · show a ∈ p1'.unassigned ++ [a]
    simp
  · rw [hPut]
    unfold PeerManager.Get
    exact hfresh

/-- C1 witness: a registry over the fresh 10.8.0.0/30 pool and a pre-exhausted
10.9.0.1/32 pool.  `Acquire("peer1")` obtains 10.8.0.1 from the first pool,
fails on the second, rolls the address back and leaves the peer map empty. -/
theorem C1_rollback_atomicity_witness :
    ∃ q1 : IPPool,
      (PeerManager.Put ⟨[],
        [⟨[], [.ip .v4 168296451, .ip .v4 168296448], [], .ip .v4 168296448,
          ⟨.ip .v4 168296448, 30⟩⟩,
         ⟨[], [.ip .v4 168361985], [], .ip .v4 168361985,
          ⟨.ip .v4 168361985, 32⟩⟩]⟩ "peer1").1 =
        .error ("failed to get addr from pool: " ++ "pool is empty") ∧
      (PeerManager.Put ⟨[],
        [⟨[], [.ip .v4 168296451, .ip .v4 168296448], [], .ip .v4 168296448,
          ⟨.ip .v4 168296448, 30⟩⟩,
         ⟨[], [.ip .v4 168361985], [], .ip .v4 168361985,
          ⟨.ip .v4 168361985, 32⟩⟩]⟩ "peer1").2 =
        ⟨[], [q1, ⟨[], [.ip .v4 168361985], [], .ip .v4 168361986,
          ⟨.ip .v4 168361985, 32⟩⟩]⟩ ∧
      q1.assigned = (⟨[], [.ip .v4 168296451, .ip .v4 168296448], [],
        .ip .v4 168296448, ⟨.ip .v4 168296448, 30⟩⟩ : IPPool).assigned ∧
      (Addr.ip .v4 168296449) ∈ q1.unassigned ∧
      PeerManager.Get (PeerManager.Put ⟨[],
        [⟨[], [.ip .v4 168296451, .ip .v4 168296448], [], .ip .v4 168296448,
          ⟨.ip .v4 168296448, 30⟩⟩,
         ⟨[], [.ip .v4 168361985], [], .ip .v4 168361985,
          ⟨.ip .v4 168361985, 32⟩⟩]⟩ "peer1").2 "peer1" = none :=
  C1_rollback_atomicity []
    ⟨[], [.ip .v4 168296451, .ip .v4 168296448], [], .ip .v4 168296448,
      ⟨.ip .v4 168296448, 30⟩⟩
    ⟨[], [.ip .v4 168361985], [], .ip .v4 168361985, ⟨.ip .v4 168361985, 32⟩⟩
    ⟨[.ip .v4 168296449], [.ip .v4 168296451, .ip .v4 168296448], [],
      .ip .v4 168296450, ⟨.ip .v4 168296448, 30⟩⟩
    ⟨[], [.ip .v4 168361985], [], .ip .v4 168361986, ⟨.ip .v4 168361985, 32⟩⟩
    "peer1" (.ip .v4 168296449) "pool is empty"
    (by decide) (by decide) (by decide) (by decide) (by decide)

end Sentinel
